import Mathlib

/-!
# Metropolis simulation of Ising spins

A shallow embedding of the three programs of the repository,

* `ising2d.cpp`: the two-dimensional lattice with free boundary conditions,
* `twospin.cpp`: two coupled spins,
* `onespin.cpp`: a single spin in a field,

followed by the properties of the specification that are settled on it.

## Modelling conventions

* A C `double` is an element of a linearly ordered field `K` (exact
  arithmetic; rounding, infinities and NaN are outside the model).  The
  definitions are computable for `K = ℚ`.
* The library function `exp` is a parameter `exp : K → K`; nothing is assumed
  about it.
* The generator `drand48` is a stream `draws : ℕ → K` of deviates together
  with the number `drawn` of deviates consumed so far; nothing is assumed
  about the values of the stream.
* The cells of the lattice hold C `int`s.  Arithmetic on cell values is done
  in `ℤ` (in every state the program reaches a cell holds 0, `+1` or `-1`);
  the accumulators `nmag`, `ntotal` wrap at their machine width, 32 bits for
  `int` and 64 bits for `long`.
* The global array `spin[NX+2][NY+2]` is a function of two integer indices.
  A read or a write whose indices leave the allocated extent yields `none`.
* The lattice dimensions `NX`, `NY` (both `#define`d as 64 in the program)
  are parameters of the definitions.
* Of the text written to the terminal the model keeps what `DisplayLattice`
  prints of the lattice; clearing the screen and pausing are left out.
* `State.calls` is a ghost log of the calls of `update_spin`; no definition
  reads it.
* The thermalization loop can stop with a fault: an access outside the array
  or a division by zero.  The operators `/` and `%` on `int` truncate towards
  zero (`Int.tdiv`, `Int.tmod`).
* The statements on acceptance probabilities take `K = ℝ` and
  `exp = Real.exp`; a deviate uniform on `[0, 1)` is Lebesgue measure on that
  interval.
-/

namespace Ising

/-! ## Loops -/

/-- The loop `for (i = lo; i < hi; i++) body`, where the body can fail.
`loopFrom body lo n` runs the `n` iterations `lo, lo+1, ..., lo+n-1`. -/
def loopFrom {σ : Type} (body : ℕ → σ → Option σ) : ℕ → ℕ → σ → Option σ
  | _, 0, s => some s
  | lo, n + 1, s => (body lo s).bind (loopFrom body (lo + 1) n)

/-- The loop `for (i = lo; i < hi; i++) body`. -/
def forRange {σ : Type} (body : ℕ → σ → Option σ) (lo hi : ℕ) (s : σ) : Option σ :=
  loopFrom body lo (hi - lo) s

/-! ## The random number generator -/

/-- One call of `drand48()`: the next deviate of the stream, and the new
number of deviates consumed. -/
def drand48 {K : Type} (draws : ℕ → K) (drawn : ℕ) : K × ℕ :=
  (draws drawn, drawn + 1)

/-! ## Machine integers -/

/-- Value of a C `int` (32 bits, two's complement) after an arithmetic
operation whose mathematical result is `x`. -/
def wrapInt (x : ℤ) : ℤ := (x + 2 ^ 31) % 2 ^ 32 - 2 ^ 31

/-- Value of a C `long` (64 bits, two's complement) after an arithmetic
operation whose mathematical result is `x`. -/
def wrapLong (x : ℤ) : ℤ := (x + 2 ^ 63) % 2 ^ 64 - 2 ^ 63

end Ising

/-! ## onespin.cpp -/

namespace OneSpin

open Ising

/-- The function `update(int *s, double h)` of `onespin.cpp`, as a function
from the value of `*s` before the call and the number of deviates drawn so
far to the value of `*s` after the call and the new number of deviates. -/
def update {K : Type} [LinearOrderedField K] (exp : K → K) (draws : ℕ → K)
    (s : ℤ) (h : K) (drawn : ℕ) : ℤ × ℕ :=
  let spin := s
  let newspin : ℤ := -spin
  let DeltaBetaE : K := ((-(newspin - spin) : ℤ) : K) * h
  if DeltaBetaE ≤ 0 then (newspin, drawn)
  else
    let u := drand48 draws drawn
    if u.1 < exp (-DeltaBetaE) then (newspin, u.2) else (spin, u.2)

end OneSpin

/-! ## twospin.cpp -/

namespace TwoSpin

open Ising

/-- The function `update_spin(int *s, double env)` of `twospin.cpp`. -/
def update_spin {K : Type} [LinearOrderedField K] (exp : K → K) (draws : ℕ → K)
    (s : ℤ) (env : K) (drawn : ℕ) : ℤ × ℕ :=
  let spin := s
  let u := drand48 draws drawn
  let newspin : ℤ := if u.1 < 1 / 2 then 1 else -1
  let DeltaBetaE : K := ((-(newspin - spin) : ℤ) : K) * env
  if DeltaBetaE ≤ 0 then (newspin, u.2)
  else
    let v := drand48 draws u.2
    if v.1 < exp (-DeltaBetaE) then (newspin, v.2) else (spin, v.2)

end TwoSpin

/-! ## ising2d.cpp -/

namespace Ising2d

open Ising

/-- The function `update_spin(int *s, double env)` of `ising2d.cpp`, as a
function from the value of `*s` before the call and the number of deviates
drawn so far to the value of `*s` after the call and the new number of
deviates.  The second `drand48()` is evaluated only when `DeltaBetaE <= 0`
fails. -/
def update_spin {K : Type} [LinearOrderedField K] (exp : K → K) (draws : ℕ → K)
    (s : ℤ) (env : K) (drawn : ℕ) : ℤ × ℕ :=
  let spin := s
  let u := drand48 draws drawn
  let newspin : ℤ := if u.1 < 1 / 2 then 1 else -1
  let DeltaBetaE : K := ((-(newspin - spin) : ℤ) : K) * env
  if DeltaBetaE ≤ 0 then (newspin, u.2)
  else
    let v := drand48 draws u.2
    if v.1 < exp (-DeltaBetaE) then (newspin, v.2) else (spin, v.2)

/-- The state of the lattice program: the global array `spin`, the number of
deviates drawn so far, and a ghost log of the calls of `update_spin` made so
far (site and environment of each call, oldest first). -/
structure State (K : Type) where
  /-- Contents of the global array `spin[NX+2][NY+2]`. -/
  spin : ℤ → ℤ → ℤ
  /-- Number of calls of `drand48` so far. -/
  drawn : ℕ
  /-- Ghost log: `(nx, ny, environment)` of every call of `update_spin`. -/
  calls : List (ℕ × ℕ × K)

/-- The index pair `[i][j]` lies inside the array `spin[NX+2][NY+2]`. -/
def inExtent (NX NY : ℕ) (i j : ℤ) : Prop :=
  0 ≤ i ∧ i < (NX : ℤ) + 2 ∧ 0 ≤ j ∧ j < (NY : ℤ) + 2

instance (NX NY : ℕ) (i j : ℤ) : Decidable (inExtent NX NY i j) := by
  unfold inExtent; infer_instance

/-- Read of `spin[i][j]`; `none` when the indices leave the array. -/
def readSpin (NX NY : ℕ) (spin : ℤ → ℤ → ℤ) (i j : ℤ) : Option ℤ :=
  if inExtent NX NY i j then some (spin i j) else none

/-- The array after `spin[i][j] = v`. -/
def setSpin (spin : ℤ → ℤ → ℤ) (i j v : ℤ) : ℤ → ℤ → ℤ :=
  fun a b => if a = i ∧ b = j then v else spin a b

/-- Write `spin[i][j] = v`; `none` when the indices leave the array. -/
def writeSpin (NX NY : ℕ) (spin : ℤ → ℤ → ℤ) (i j v : ℤ) : Option (ℤ → ℤ → ℤ) :=
  if inExtent NX NY i j then some (setSpin spin i j v) else none

/-- Body of the double loop of `sweep` at the loop indices `nx`, `ny`: the
four neighbours are read, the environment is formed, and `update_spin` is
called on the cell `spin[nx][ny]`. -/
def sweepSite {K : Type} [LinearOrderedField K] (NX NY : ℕ) (exp : K → K) (draws : ℕ → K)
    (beta h : K) (nx ny : ℕ) (st : State K) : Option (State K) :=
  (readSpin NX NY st.spin nx ((ny : ℤ) - 1)).bind fun a =>
  (readSpin NX NY st.spin nx ((ny : ℤ) + 1)).bind fun b =>
  (readSpin NX NY st.spin ((nx : ℤ) - 1) ny).bind fun c =>
  (readSpin NX NY st.spin ((nx : ℤ) + 1) ny).bind fun e =>
  let environment : K := beta * ((a + b + c + e : ℤ) : K) + h
  (readSpin NX NY st.spin nx ny).bind fun s =>
  let r := update_spin exp draws s environment st.drawn
  (writeSpin NX NY st.spin nx ny r.1).bind fun sp =>
  some { spin := sp, drawn := r.2, calls := st.calls ++ [(nx, ny, environment)] }

/-- The inner loop of `sweep`: `for(ny=1; ny<=NY; ny++)` at a fixed `nx`. -/
def sweepRow {K : Type} [LinearOrderedField K] (NX NY : ℕ) (exp : K → K) (draws : ℕ → K)
    (beta h : K) (nx : ℕ) (st : State K) : Option (State K) :=
  forRange (sweepSite NX NY exp draws beta h nx) 1 (NY + 1) st

/-- The function `sweep(double beta, double h)` of `ising2d.cpp`. -/
def sweep {K : Type} [LinearOrderedField K] (NX NY : ℕ) (exp : K → K) (draws : ℕ → K)
    (beta h : K) (st : State K) : Option (State K) :=
  forRange (sweepRow NX NY exp draws beta h) 1 (NX + 1) st

/-- Body of the double loop of `InitializeHot` at the loop indices `nx`,
`ny`. -/
def initSite {K : Type} [LinearOrderedField K] (NX NY : ℕ) (draws : ℕ → K)
    (nx ny : ℕ) (st : State K) : Option (State K) :=
  if nx = 0 ∨ nx = NX + 1 ∨ ny = 0 ∨ ny = NY + 1 then
    (writeSpin NX NY st.spin nx ny 0).bind fun sp =>
    some { st with spin := sp }
  else
    let u := drand48 draws st.drawn
    (writeSpin NX NY st.spin nx ny (if u.1 < 1 / 2 then 1 else -1)).bind fun sp =>
    some { st with spin := sp, drawn := u.2 }

/-- The function `InitializeHot()` of `ising2d.cpp`. -/
def InitializeHot {K : Type} [LinearOrderedField K] (NX NY : ℕ) (draws : ℕ → K)
    (st : State K) : Option (State K) :=
  forRange (fun nx => forRange (initSite NX NY draws nx) 0 (NY + 2)) 0 (NX + 2) st

/-- The summation loop of `Magnetization()`: the final value of the local
`int nmag`. -/
def magSum (NX NY : ℕ) (spin : ℤ → ℤ → ℤ) : Option ℤ :=
  forRange (fun nx => forRange (fun ny nmag =>
      (readSpin NX NY spin nx ny).bind fun s => some (wrapInt (nmag + s))) 1 (NY + 1))
    1 (NX + 1) 0

/-- The function `Magnetization()` of `ising2d.cpp`. -/
def Magnetization {K : Type} [LinearOrderedField K] (NX NY : ℕ) (spin : ℤ → ℤ → ℤ) :
    Option K :=
  (magSum NX NY spin).bind fun nmag =>
  some ((nmag : K) / ((wrapInt ((NX : ℤ) * (NY : ℤ)) : ℤ) : K))

/-- `k` successive calls of `sweep(beta, h)`. -/
def sweeps {K : Type} [LinearOrderedField K] (NX NY : ℕ) (exp : K → K) (draws : ℕ → K)
    (beta h : K) : ℕ → State K → Option (State K)
  | 0, st => some st
  | k + 1, st => (sweep NX NY exp draws beta h st).bind (sweeps NX NY exp draws beta h k)

/-- The call of `sweep` interrupted right after the call of `update_spin` at
the site `(x, y)`: the rows `1, ..., x-1` are complete and the row `x` has
been processed up to and including the column `y`. -/
def sweepUpTo {K : Type} [LinearOrderedField K] (NX NY : ℕ) (exp : K → K) (draws : ℕ → K)
    (beta h : K) (x y : ℕ) (st : State K) : Option (State K) :=
  (forRange (sweepRow NX NY exp draws beta h) 1 x st).bind
    (forRange (sweepSite NX NY exp draws beta h x) 1 (y + 1))

/-- The constant `VisualDisplay` of `ising2d.cpp`. -/
def VisualDisplay : ℤ := 1

/-- What one call of `DisplayLattice` writes: the characters of the picture
of the lattice, and the sweep number and magnetization of the closing line
when that line is printed. -/
structure Frame (K : Type) where
  /-- Characters written by the double loop, line ends included. -/
  text : List Char
  /-- Arguments of the closing `printf`, when `sweep_number >= 0`. -/
  sigma : Option (ℤ × K)

/-- Body of the inner loop of `DisplayLattice`: the cell is read by each of
the two tests. -/
def displayCell (NX NY : ℕ) (spin : ℤ → ℤ → ℤ) (nx ny : ℕ) (out : List Char) :
    Option (List Char) :=
  (readSpin NX NY spin nx ny).bind fun a =>
  let out1 := if a = 1 then out ++ ['X'] else out
  (readSpin NX NY spin nx ny).bind fun b =>
  some (if b = -1 then out1 ++ ['-'] else out1)

/-- Body of the outer loop of `DisplayLattice`: one row and its line end. -/
def displayRow (NX NY : ℕ) (spin : ℤ → ℤ → ℤ) (nx : ℕ) (out : List Char) :
    Option (List Char) :=
  (forRange (displayCell NX NY spin nx) 1 (NY + 1) out).bind fun o =>
  some (o ++ [Char.ofNat 10])

/-- The function `DisplayLattice(int sweep_number)` of `ising2d.cpp`; it
leaves the lattice and the generator as they are. -/
def DisplayLattice {K : Type} [LinearOrderedField K] (NX NY : ℕ) (spin : ℤ → ℤ → ℤ)
    (sweep_number : ℤ) : Option (Frame K) :=
  (forRange (displayRow NX NY spin) 1 (NX + 1) []).bind fun text =>
  if 0 ≤ sweep_number then
    (Magnetization NX NY spin).bind fun m =>
    some { text := text, sigma := some (sweep_number, m) }
  else some { text := text, sigma := none }

/-- The variables of `main` during the measurement loop: the program state,
the accumulators `long nmag, ntotal`, and the frames displayed so far. -/
structure Meas (K : Type) where
  /-- Lattice, generator and call log. -/
  st : State K
  /-- The accumulator `nmag`. -/
  nmag : ℤ
  /-- The accumulator `ntotal`. -/
  ntotal : ℤ
  /-- Frames written by `DisplayLattice`, oldest first. -/
  shown : List (Frame K)

/-- Body of the accumulation loop of `main`:
`nmag += spin[nx][ny]; ntotal++;`. -/
def accumulateSite {K : Type} (NX NY : ℕ) (nx ny : ℕ) (m : Meas K) : Option (Meas K) :=
  (readSpin NX NY m.st.spin nx ny).bind fun s =>
  some { m with nmag := wrapLong (m.nmag + s), ntotal := wrapLong (m.ntotal + 1) }

/-- Body of the measurement loop of `main` at the sweep index `n`. -/
def measureStep {K : Type} [LinearOrderedField K] (NX NY : ℕ) (exp : K → K) (draws : ℕ → K)
    (beta h : K) (n : ℕ) (m : Meas K) : Option (Meas K) :=
  (if VisualDisplay ≠ 0 then
      (DisplayLattice NX NY m.st.spin n).bind fun f => some { m with shown := m.shown ++ [f] }
    else some m).bind fun m1 =>
  (sweep NX NY exp draws beta h m1.st).bind fun st' =>
  forRange (fun nx => forRange (accumulateSite NX NY nx) 1 (NY + 1)) 1 (NX + 1)
    { m1 with st := st' }

/-- The measurement loop of `main`: `nmag=ntotal=0;` followed by
`for(n=0; n<nsweep; n++)`. -/
def measureLoop {K : Type} [LinearOrderedField K] (NX NY : ℕ) (exp : K → K) (draws : ℕ → K)
    (beta h : K) (nsweep : ℕ) (st : State K) : Option (Meas K) :=
  forRange (measureStep NX NY exp draws beta h) 0 nsweep
    { st := st, nmag := 0, ntotal := 0, shown := [] }

/-- The value `(double)nmag/ntotal` that `main` reports. -/
def averageMagnetization {K : Type} [LinearOrderedField K] (m : Meas K) : K :=
  (m.nmag : K) / (m.ntotal : K)

/-- Sum of the `NX * NY` interior cells of the array. -/
def interiorSum (NX NY : ℕ) (spin : ℤ → ℤ → ℤ) : ℤ :=
  ∑ x in Finset.Ico 1 (NX + 1), ∑ y in Finset.Ico 1 (NY + 1), spin x y

/-- Sum of the cells `spin[x][1], ..., spin[x][cy-1]` of one row. -/
def rowSum (spin : ℤ → ℤ → ℤ) (x cy : ℕ) : ℤ :=
  ∑ y in Finset.Ico 1 cy, spin x y

/-- Sum of the interior cells that come before the site `(cx, cy)` in the
order of the double loops: the rows `1, ..., cx-1` and the cells
`1, ..., cy-1` of the row `cx`. -/
def partialSum (NY : ℕ) (spin : ℤ → ℤ → ℤ) (cx cy : ℕ) : ℤ :=
  ∑ x in Finset.Ico 1 cx, rowSum spin x (NY + 1) + rowSum spin cx cy

/-- Number of interior cells that come before the site `(cx, cy)` in the
order of the double loops. -/
def sitesBefore (NY : ℕ) (cx cy : ℕ) : ℕ := (cx - 1) * NY + (cy - 1)

/-- The interior sites in the order `x` ascending, and `y` ascending within
each `x`. -/
def rowMajor (NX NY : ℕ) : List (ℕ × ℕ) :=
  (List.range' 1 NX).flatMap fun x => (List.range' 1 NY).map fun y => (x, y)

/-- The interior sites that come before the site `(cx, cy)` in the order of
the double loops, in that order. -/
def sitesUpTo (NY : ℕ) (cx cy : ℕ) : List (ℕ × ℕ) :=
  ((List.range' 1 (cx - 1)).flatMap fun x => (List.range' 1 NY).map fun y => (x, y))
    ++ (List.range' 1 (cy - 1)).map fun y => (cx, y)

end Ising2d

/-! ## Predicates on lattice states -/

namespace Ising2d

/-- Every cell of the border ring, `spin[0][j]`, `spin[NX+1][j]`, `spin[i][0]`
and `spin[i][NY+1]` for `0 ≤ i ≤ NX+1`, `0 ≤ j ≤ NY+1`, holds 0. -/
def borderZero (NX NY : ℕ) (spin : ℤ → ℤ → ℤ) : Prop :=
  ∀ i : ℕ, i < NX + 2 → ∀ j : ℕ, j < NY + 2 →
    (i = 0 ∨ i = NX + 1 ∨ j = 0 ∨ j = NY + 1) → spin i j = 0

/-- Every interior cell `spin[x][y]`, `1 ≤ x ≤ NX`, `1 ≤ y ≤ NY`, holds `+1`
or `-1`. -/
def interiorPM (NX NY : ℕ) (spin : ℤ → ℤ → ℤ) : Prop :=
  ∀ x : ℕ, x < NX + 1 → ∀ y : ℕ, y < NY + 1 → 1 ≤ x → 1 ≤ y →
    spin x y = 1 ∨ spin x y = -1

instance (NX NY : ℕ) (spin : ℤ → ℤ → ℤ) : Decidable (borderZero NX NY spin) := by
  unfold borderZero; infer_instance

instance (NX NY : ℕ) (spin : ℤ → ℤ → ℤ) : Decidable (interiorPM NX NY spin) := by
  unfold interiorPM; infer_instance

/-- The environment that `sweep` forms at the site `(nx, ny)` of the array
`spin`. -/
def siteEnv {K : Type} [LinearOrderedField K] (beta h : K) (spin : ℤ → ℤ → ℤ)
    (nx ny : ℕ) : K :=
  beta * ((spin nx ((ny : ℤ) - 1) + spin nx ((ny : ℤ) + 1)
    + spin ((nx : ℤ) - 1) ny + spin ((nx : ℤ) + 1) ny : ℤ) : K) + h

/-- The state after the body of `sweep` has run at an interior site. -/
def siteResult {K : Type} [LinearOrderedField K] (exp : K → K) (draws : ℕ → K)
    (beta h : K) (nx ny : ℕ) (st : State K) : State K :=
  { spin := setSpin st.spin nx ny
      (update_spin exp draws (st.spin nx ny) (siteEnv beta h st.spin nx ny) st.drawn).1
    drawn := (update_spin exp draws (st.spin nx ny) (siteEnv beta h st.spin nx ny) st.drawn).2
    calls := st.calls ++ [(nx, ny, siteEnv beta h st.spin nx ny)] }

end Ising2d

/-! ## The thermalization loop of ising2d.cpp -/

namespace Ising

/-- The ways in which a run of the lattice program can go wrong. -/
inductive Fault where
  /-- An access to `spin` outside the array. -/
  | outOfRange
  /-- An integer division or remainder with divisor 0. -/
  | divByZero
  deriving DecidableEq

/-- The loop `for (i = lo; ...; i++) body` with a body that can raise a
fault: `loopFromE body lo n` runs the `n` iterations `lo, ..., lo+n-1` and
stops at the first fault. -/
def loopFromE {σ : Type} (body : ℕ → σ → Except Fault σ) : ℕ → ℕ → σ → Except Fault σ
  | _, 0, s => Except.ok s
  | lo, n + 1, s =>
    match body lo s with
    | Except.error e => Except.error e
    | Except.ok t => loopFromE body (lo + 1) n t

end Ising

namespace Ising2d

open Ising

/-- The program state during the thermalization loop of `main`, together
with what the loop has written: the frames of `DisplayLattice(-1)` and the
numbers `n` of the lines `Thermalization sweep n`. -/
structure Therm (K : Type) where
  /-- Lattice, generator and call log. -/
  st : State K
  /-- Frames written by `DisplayLattice(-1)`, oldest first. -/
  shown : List (Frame K)
  /-- The sweep indices printed after the frames, oldest first. -/
  printed : List ℕ

/-- Body of the thermalization loop of `main` at the index `n`, for the value
`ntherm` of the global `int ntherm`:
`sweep(beta,h); if (VisualDisplay && n%(ntherm/10)==0) { DisplayLattice(-1); ... }`.
The operators `/` and `%` of C truncate towards zero; with a divisor 0 they
raise `divByZero`. -/
def thermStep {K : Type} [LinearOrderedField K] (NX NY : ℕ) (exp : K → K) (draws : ℕ → K)
    (beta h : K) (ntherm : ℤ) (n : ℕ) (t : Therm K) : Except Fault (Therm K) :=
  match sweep NX NY exp draws beta h t.st with
  | none => Except.error Fault.outOfRange
  | some st' =>
    if VisualDisplay ≠ 0 then
      if ntherm.tdiv 10 = 0 then Except.error Fault.divByZero
      else if (n : ℤ).tmod (ntherm.tdiv 10) = 0 then
        match DisplayLattice NX NY st'.spin (-1) with
        | none => Except.error Fault.outOfRange
        | some f =>
          Except.ok { st := st', shown := t.shown ++ [f], printed := t.printed ++ [n] }
      else Except.ok { t with st := st' }
    else Except.ok { t with st := st' }

/-- The thermalization loop of `main`, `for(n=0; n<ntherm; n++)`, started in
the state `st` with nothing written yet. -/
def thermalize {K : Type} [LinearOrderedField K] (NX NY : ℕ) (exp : K → K) (draws : ℕ → K)
    (beta h : K) (ntherm : ℤ) (st : State K) : Except Fault (Therm K) :=
  loopFromE (thermStep NX NY exp draws beta h ntherm) 0 ntherm.toNat
    { st := st, shown := [], printed := [] }

end Ising2d

/-! ## The main loop of twospin.cpp -/

namespace TwoSpin

open Ising

/-- The function `sweep(int *s1, int *s2, double beta, double h)` of
`twospin.cpp`: from the two spins and the number of deviates drawn so far to
the two spins after the call and the new number of deviates. -/
def sweep {K : Type} [LinearOrderedField K] (exp : K → K) (draws : ℕ → K) (beta h : K)
    (s1 s2 : ℤ) (drawn : ℕ) : ℤ × ℤ × ℕ :=
  let spin2 := s2
  let r1 := update_spin exp draws s1 (beta * (spin2 : K) + h) drawn
  let spin1 := r1.1
  let r2 := update_spin exp draws s2 (beta * (spin1 : K) + h) r1.2
  (r1.1, r2.1, r2.2)

/-- The variables of `main` of `twospin.cpp`; all counters are C `int`s. -/
structure Run where
  /-- The variable `spin1`. -/
  spin1 : ℤ
  /-- The variable `spin2`. -/
  spin2 : ℤ
  /-- Number of calls of `drand48` so far. -/
  drawn : ℕ
  /-- The counter `nupup`. -/
  nupup : ℤ
  /-- The counter `nupdown`. -/
  nupdown : ℤ
  /-- The counter `ndownup`. -/
  ndownup : ℤ
  /-- The counter `ndowndown`. -/
  ndowndown : ℤ
  /-- The accumulator `nmag`. -/
  nmag : ℤ
  /-- The accumulator `ncorr`. -/
  ncorr : ℤ
  /-- The counter `ntotal`. -/
  ntotal : ℤ

/-- The variables of `main` on entry to its loop: all counters 0 and the
"hot" start `spin1 = spin2 = -1; if(drand48()<0.5) spin1 = 1;
if(drand48()<0.5) spin2 = 1;`. -/
def hotStart {K : Type} [LinearOrderedField K] (draws : ℕ → K) (drawn : ℕ) : Run :=
  let u := drand48 draws drawn
  let spin1 : ℤ := if u.1 < 1 / 2 then 1 else -1
  let v := drand48 draws u.2
  let spin2 : ℤ := if v.1 < 1 / 2 then 1 else -1
  { spin1 := spin1, spin2 := spin2, drawn := v.2, nupup := 0, nupdown := 0, ndownup := 0,
    ndowndown := 0, nmag := 0, ncorr := 0, ntotal := 0 }

/-- Body of the loop of `main` of `twospin.cpp`. -/
def loopBody {K : Type} [LinearOrderedField K] (exp : K → K) (draws : ℕ → K) (beta h : K)
    (r : Run) : Run :=
  let s := sweep exp draws beta h r.spin1 r.spin2 r.drawn
  let spin1 := s.1
  let spin2 := s.2.1
  let nmag1 := wrapInt (r.nmag + spin1)
  let ntotal1 := wrapInt (r.ntotal + 1)
  let nmag2 := wrapInt (nmag1 + spin2)
  let ntotal2 := wrapInt (ntotal1 + 1)
  { spin1 := spin1, spin2 := spin2, drawn := s.2.2,
    nupup := if spin1 = 1 ∧ spin2 = 1 then wrapInt (r.nupup + 1) else r.nupup,
    nupdown := if spin1 = 1 ∧ spin2 = -1 then wrapInt (r.nupdown + 1) else r.nupdown,
    ndownup := if spin1 = -1 ∧ spin2 = 1 then wrapInt (r.ndownup + 1) else r.ndownup,
    ndowndown := if spin1 = -1 ∧ spin2 = -1 then wrapInt (r.ndowndown + 1) else r.ndowndown,
    nmag := nmag2,
    ncorr := wrapInt (r.ncorr + wrapInt (spin1 * spin2)),
    ntotal := ntotal2 }

/-- The loop `for(int n=0; n<nsweep; n++)` of `main`: `nsweep` runs of the
body. -/
def mainLoop {K : Type} [LinearOrderedField K] (exp : K → K) (draws : ℕ → K) (beta h : K)
    (nsweep : ℕ) (r : Run) : Run :=
  (loopBody exp draws beta h)^[nsweep] r

/-- The reported `P(++) = (double)nupup/nsweep`. -/
def reportUpUp {K : Type} [LinearOrderedField K] (r : Run) (nsweep : ℕ) : K :=
  (r.nupup : K) / (nsweep : K)

/-- The reported `P(+-) = (double)nupdown/nsweep`. -/
def reportUpDown {K : Type} [LinearOrderedField K] (r : Run) (nsweep : ℕ) : K :=
  (r.nupdown : K) / (nsweep : K)

/-- The reported `P(-+) = (double)ndownup/nsweep`. -/
def reportDownUp {K : Type} [LinearOrderedField K] (r : Run) (nsweep : ℕ) : K :=
  (r.ndownup : K) / (nsweep : K)

/-- The reported `P(--) = (double)ndowndown/nsweep`. -/
def reportDownDown {K : Type} [LinearOrderedField K] (r : Run) (nsweep : ℕ) : K :=
  (r.ndowndown : K) / (nsweep : K)

/-- The reported correlation `<s1 s2> = (double)ncorr/nsweep`. -/
def reportCorrelation {K : Type} [LinearOrderedField K] (r : Run) (nsweep : ℕ) : K :=
  (r.ncorr : K) / (nsweep : K)

end TwoSpin

/-! ## The main loop of onespin.cpp -/

namespace OneSpin

open Ising

/-- The variables of `main` of `onespin.cpp`; the counters are C `int`s. -/
structure Run where
  /-- The variable `spin`. -/
  spin : ℤ
  /-- Number of calls of `drand48` so far. -/
  drawn : ℕ
  /-- The counter `nplus`. -/
  nplus : ℤ
  /-- The counter `nminus`. -/
  nminus : ℤ

/-- Body of the loop of `main` of `onespin.cpp`:
`update(&spin,h); if (spin == 1) nplus++; if (spin == -1) nminus++;`. -/
def loopBody {K : Type} [LinearOrderedField K] (exp : K → K) (draws : ℕ → K) (h : K)
    (r : Run) : Run :=
  let u := update exp draws r.spin h r.drawn
  let spin := u.1
  { spin := spin, drawn := u.2,
    nplus := if spin = 1 then wrapInt (r.nplus + 1) else r.nplus,
    nminus := if spin = -1 then wrapInt (r.nminus + 1) else r.nminus }

/-- The loop of `main` of `onespin.cpp`, entered with `spin = 1`,
`nplus = nminus = 0` and `drawn` deviates consumed: `nsweep` runs of the
body. -/
def mainLoop {K : Type} [LinearOrderedField K] (exp : K → K) (draws : ℕ → K) (h : K)
    (nsweep : ℕ) (drawn : ℕ) : Run :=
  (loopBody exp draws h)^[nsweep] { spin := 1, drawn := drawn, nplus := 0, nminus := 0 }

/-- The reported `<sigma> = (double)(nplus-nminus)/(nplus+nminus)`. -/
def reportSigma {K : Type} [LinearOrderedField K] (r : Run) : K :=
  ((wrapInt (r.nplus - r.nminus) : ℤ) : K) / ((wrapInt (r.nplus + r.nminus) : ℤ) : K)

end OneSpin

/-! ## Predicates on the runs of twospin.cpp -/

namespace TwoSpin

/-- The accounting relations between the variables of `main` after `n` runs
of the loop body: both spins are `+1` or `-1`, the four state counters are
non-negative and add up to `n`, and `ncorr`, `nmag`, `ntotal` are the
combinations of them that the loop maintains. -/
def Accounted (n : ℕ) (r : Run) : Prop :=
  (r.spin1 = 1 ∨ r.spin1 = -1) ∧ (r.spin2 = 1 ∨ r.spin2 = -1) ∧
  0 ≤ r.nupup ∧ 0 ≤ r.nupdown ∧ 0 ≤ r.ndownup ∧ 0 ≤ r.ndowndown ∧
  r.nupup + r.nupdown + r.ndownup + r.ndowndown = (n : ℤ) ∧
  r.ncorr = (r.nupup + r.ndowndown) - (r.nupdown + r.ndownup) ∧
  r.nmag = 2 * (r.nupup - r.ndowndown) ∧
  r.ntotal = 2 * (n : ℤ)

/-- From `r` to `r'` exactly one of the four state counters has been
incremented, by one, and the other three are unchanged. -/
def oneCounted (r r' : Run) : Prop :=
  (r'.nupup = r.nupup + 1 ∧ r'.nupdown = r.nupdown ∧ r'.ndownup = r.ndownup
    ∧ r'.ndowndown = r.ndowndown) ∨
  (r'.nupup = r.nupup ∧ r'.nupdown = r.nupdown + 1 ∧ r'.ndownup = r.ndownup
    ∧ r'.ndowndown = r.ndowndown) ∨
  (r'.nupup = r.nupup ∧ r'.nupdown = r.nupdown ∧ r'.ndownup = r.ndownup + 1
    ∧ r'.ndowndown = r.ndowndown) ∨
  (r'.nupup = r.nupup ∧ r'.nupdown = r.nupdown ∧ r'.ndownup = r.ndownup
    ∧ r'.ndowndown = r.ndowndown + 1)

end TwoSpin

/-! ## The acceptance probability -/

namespace Ising

/-- The acceptance probability `A(s → s')` in the words of the
specification: 1 if `DeltaBetaE = -(s' - s) * env` is `≤ 0`, and
`exp(-DeltaBetaE)` otherwise. -/
def acceptProb {K : Type} [LinearOrderedField K] (exp : K → K) (s s' : ℤ) (env : K) : K :=
  if ((-(s' - s) : ℤ) : K) * env ≤ 0 then 1 else exp (-(((-(s' - s) : ℤ) : K) * env))

end Ising

/-! ## Loop rules -/

namespace Ising

theorem loopFrom_inv {σ : Type} (body : ℕ → σ → Option σ) (I : ℕ → σ → Prop) :
    ∀ (n lo : ℕ) (s : σ), I lo s →
      (∀ i t, lo ≤ i → i < lo + n → I i t → ∃ t', body i t = some t' ∧ I (i + 1) t') →
      ∃ s', loopFrom body lo n s = some s' ∧ I (lo + n) s' := by
  intro n
  induction n with
  | zero => intro lo s h0 _; exact ⟨s, rfl, by simpa using h0⟩
  | succ n ih =>
    intro lo s h0 hstep
    obtain ⟨t, ht, hI⟩ := hstep lo s (Nat.le_refl _) (by omega) h0
    obtain ⟨s', hs', hI'⟩ := ih (lo + 1) t hI (fun i u h1 h2 hu => hstep i u (by omega) (by omega) hu)
    refine ⟨s', ?_, ?_⟩
    · simp [loopFrom, ht, hs']
    · have e : lo + (n + 1) = lo + 1 + n := by omega
      rw [e]; exact hI'

theorem forRange_inv {σ : Type} (body : ℕ → σ → Option σ) (I : ℕ → σ → Prop)
    (lo hi : ℕ) (hle : lo ≤ hi) (s : σ) (h0 : I lo s)
    (hstep : ∀ i t, lo ≤ i → i < hi → I i t → ∃ t', body i t = some t' ∧ I (i + 1) t') :
    ∃ s', forRange body lo hi s = some s' ∧ I hi s' := by
  obtain ⟨s', h1, h2⟩ := loopFrom_inv body I (hi - lo) lo s h0
    (fun i t a b c => hstep i t a (by omega) c)
  refine ⟨s', h1, ?_⟩
  have e : lo + (hi - lo) = hi := by omega
  rw [e] at h2; exact h2

/-- Rule for a doubly nested loop: `P x y s` says that `s` is the state on
entry to the inner body at the indices `x`, `y`. -/
theorem nested_inv {σ : Type} (body : ℕ → ℕ → σ → Option σ) (P : ℕ → ℕ → σ → Prop)
    (lo1 hi1 lo2 hi2 : ℕ) (h1 : lo1 ≤ hi1) (h2 : lo2 ≤ hi2) (s : σ) (h0 : P lo1 lo2 s)
    (hstep : ∀ x y t, lo1 ≤ x → x < hi1 → lo2 ≤ y → y < hi2 → P x y t →
      ∃ t', body x y t = some t' ∧ P x (y + 1) t')
    (hrow : ∀ x t, lo1 ≤ x → x < hi1 → P x hi2 t → P (x + 1) lo2 t) :
    ∃ s', forRange (fun x => forRange (body x) lo2 hi2) lo1 hi1 s = some s' ∧ P hi1 lo2 s' := by
  apply forRange_inv (fun x => forRange (body x) lo2 hi2) (fun x t => P x lo2 t) lo1 hi1 h1 s h0
  intro x t hx1 hx2 hP
  obtain ⟨t', ht', hP'⟩ := forRange_inv (body x) (fun y u => P x y u) lo2 hi2 h2 t hP
    (fun y u hy1 hy2 hu => hstep x y u hx1 hx2 hy1 hy2 hu)
  exact ⟨t', ht', hrow x t' hx1 hx2 hP'⟩

end Ising

/-! ## One step of the sweep -/

namespace Ising2d

open Ising

theorem readSpin_of_inExtent {NX NY : ℕ} (spin : ℤ → ℤ → ℤ) {i j : ℤ}
    (hin : inExtent NX NY i j) : readSpin NX NY spin i j = some (spin i j) :=
  if_pos hin

theorem writeSpin_of_inExtent {NX NY : ℕ} (spin : ℤ → ℤ → ℤ) {i j : ℤ} (v : ℤ)
    (hin : inExtent NX NY i j) : writeSpin NX NY spin i j v = some (setSpin spin i j v) :=
  if_pos hin

theorem sweepSite_eq {K : Type} [LinearOrderedField K] (NX NY : ℕ) (exp : K → K)
    (draws : ℕ → K) (beta h : K) (nx ny : ℕ) (st : State K)
    (hx1 : 1 ≤ nx) (hx2 : nx ≤ NX) (hy1 : 1 ≤ ny) (hy2 : ny ≤ NY) :
    sweepSite NX NY exp draws beta h nx ny st = some (siteResult exp draws beta h nx ny st) := by
  have e1 : inExtent NX NY nx ((ny : ℤ) - 1) := by unfold inExtent; omega
  have e2 : inExtent NX NY nx ((ny : ℤ) + 1) := by unfold inExtent; omega
  have e3 : inExtent NX NY ((nx : ℤ) - 1) ny := by unfold inExtent; omega
  have e4 : inExtent NX NY ((nx : ℤ) + 1) ny := by unfold inExtent; omega
  have e5 : inExtent NX NY nx ny := by unfold inExtent; omega
  simp only [sweepSite, readSpin_of_inExtent _ e1, readSpin_of_inExtent _ e2,
    readSpin_of_inExtent _ e3, readSpin_of_inExtent _ e4, readSpin_of_inExtent _ e5,
    writeSpin_of_inExtent _ _ e5, Option.some_bind, siteResult, siteEnv]

/-- Rule for one call of `sweep`: `P x y st` says that `st` is the state on
entry to the body at the site `(x, y)`. -/
theorem sweep_inv {K : Type} [LinearOrderedField K] (NX NY : ℕ) (exp : K → K)
    (draws : ℕ → K) (beta h : K) (P : ℕ → ℕ → State K → Prop) (st : State K)
    (h0 : P 1 1 st)
    (hstep : ∀ x y t, 1 ≤ x → x ≤ NX → 1 ≤ y → y ≤ NY → P x y t →
      P x (y + 1) (siteResult exp draws beta h x y t))
    (hrow : ∀ x t, 1 ≤ x → x ≤ NX → P x (NY + 1) t → P (x + 1) 1 t) :
    ∃ st', sweep NX NY exp draws beta h st = some st' ∧ P (NX + 1) 1 st' := by
  apply nested_inv (sweepSite NX NY exp draws beta h) P 1 (NX + 1) 1 (NY + 1)
    (by omega) (by omega) st h0
  · intro x y t hx1 hx2 hy1 hy2 hP
    exact ⟨_, sweepSite_eq NX NY exp draws beta h x y t hx1 (by omega) hy1 (by omega),
      hstep x y t hx1 (by omega) hy1 (by omega) hP⟩
  · intro x t hx1 hx2 hP
    exact hrow x t hx1 (by omega) hP

/-- Rule for `k` successive sweeps. -/
theorem sweeps_inv {K : Type} [LinearOrderedField K] (NX NY : ℕ) (exp : K → K)
    (draws : ℕ → K) (beta h : K) (Q : State K → Prop)
    (hQ : ∀ st, Q st → ∃ st', sweep NX NY exp draws beta h st = some st' ∧ Q st') :
    ∀ (k : ℕ) (st : State K), Q st →
      ∃ st', sweeps NX NY exp draws beta h k st = some st' ∧ Q st' := by
  intro k
  induction k with
  | zero => intro st hst; exact ⟨st, rfl, hst⟩
  | succ k ih =>
    intro st hst
    obtain ⟨t, ht, hQt⟩ := hQ st hst
    obtain ⟨st', hst', hQ'⟩ := ih t hQt
    exact ⟨st', by simp [sweeps, ht, hst'], hQ'⟩

end Ising2d

/-! ## Invariants of the lattice -/

namespace Ising2d

open Ising

theorem update_spin_fst_cases {K : Type} [LinearOrderedField K] (exp : K → K)
    (draws : ℕ → K) (s : ℤ) (env : K) (drawn : ℕ) :
    (update_spin exp draws s env drawn).1 = 1 ∨ (update_spin exp draws s env drawn).1 = -1
      ∨ (update_spin exp draws s env drawn).1 = s := by
  unfold update_spin
  simp only
  split_ifs <;> simp

theorem update_spin_pm {K : Type} [LinearOrderedField K] (exp : K → K)
    (draws : ℕ → K) (s : ℤ) (env : K) (drawn : ℕ) (hs : s = 1 ∨ s = -1) :
    (update_spin exp draws s env drawn).1 = 1 ∨ (update_spin exp draws s env drawn).1 = -1 := by
  rcases update_spin_fst_cases exp draws s env drawn with h | h | h
  · exact Or.inl h
  · exact Or.inr h
  · rw [h]; exact hs

theorem setSpin_same (spin : ℤ → ℤ → ℤ) (i j v : ℤ) : setSpin spin i j v i j = v := by
  simp [setSpin]

theorem setSpin_other (spin : ℤ → ℤ → ℤ) (i j v a b : ℤ) (hne : ¬ (a = i ∧ b = j)) :
    setSpin spin i j v a b = spin a b := by
  simp [setSpin, hne]

theorem InitializeHot_spec {K : Type} [LinearOrderedField K] (NX NY : ℕ) (draws : ℕ → K)
    (st0 : State K) :
    ∃ st, InitializeHot NX NY draws st0 = some st ∧ borderZero NX NY st.spin
      ∧ interiorPM NX NY st.spin := by
  obtain ⟨st, hst, hP⟩ := nested_inv (initSite NX NY draws)
    (fun cx cy (t : State K) => ∀ i : ℕ, i < NX + 2 → ∀ j : ℕ, j < NY + 2 →
      (i < cx ∨ (i = cx ∧ j < cy)) →
      ((i = 0 ∨ i = NX + 1 ∨ j = 0 ∨ j = NY + 1) → t.spin i j = 0) ∧
      (¬ (i = 0 ∨ i = NX + 1 ∨ j = 0 ∨ j = NY + 1) → (t.spin i j = 1 ∨ t.spin i j = -1)))
    0 (NX + 2) 0 (NY + 2) (by omega) (by omega) st0
    (by intro i _ j _ hlt; omega)
    (by
      intro x y t _ hx _ hy hP
      have hin : inExtent NX NY (x : ℤ) (y : ℤ) := by unfold inExtent; omega
      by_cases hb : x = 0 ∨ x = NX + 1 ∨ y = 0 ∨ y = NY + 1
      · refine ⟨{ t with spin := setSpin t.spin x y 0 }, ?_, ?_⟩
        · simp only [initSite, if_pos hb, writeSpin_of_inExtent _ _ hin, Option.some_bind]
        · intro i hi j hj hlt
          by_cases hij : i = x ∧ j = y
          · obtain ⟨rfl, rfl⟩ := hij
            exact ⟨fun _ => setSpin_same _ _ _ _, fun hnb => absurd hb hnb⟩
          · have hne : ¬ ((i : ℤ) = x ∧ (j : ℤ) = y) := by omega
            simp only [setSpin_other _ _ _ _ _ _ hne]
            exact hP i hi j hj (by omega)
      · refine ⟨⟨setSpin t.spin x y (if (drand48 draws t.drawn).1 < 1 / 2 then 1 else -1),
          (drand48 draws t.drawn).2, t.calls⟩, ?_, ?_⟩
        · simp only [initSite, if_neg hb, writeSpin_of_inExtent _ _ hin, Option.some_bind]
        · intro i hi j hj hlt
          by_cases hij : i = x ∧ j = y
          · obtain ⟨rfl, rfl⟩ := hij
            simp only [setSpin_same]
            refine ⟨fun hb' => absurd hb' hb, fun _ => ?_⟩
            split_ifs
            · exact Or.inl rfl
            · exact Or.inr rfl
          · have hne : ¬ ((i : ℤ) = x ∧ (j : ℤ) = y) := by omega
            simp only [setSpin_other _ _ _ _ _ _ hne]
            exact hP i hi j hj (by omega))
    (by
      intro x t _ _ hP i hi j hj hlt
      exact hP i hi j hj (by omega))
  refine ⟨st, hst, ?_, ?_⟩
  · intro i hi j hj hb
    exact (hP i hi j hj (by omega)).1 hb
  · intro x hx y hy hx1 hy1
    exact (hP x (by omega) y (by omega) (by omega)).2 (by omega)

theorem siteResult_borderZero {K : Type} [LinearOrderedField K] (NX NY : ℕ) (exp : K → K)
    (draws : ℕ → K) (beta h : K) (x y : ℕ) (t : State K)
    (hx1 : 1 ≤ x) (hx2 : x ≤ NX) (hy1 : 1 ≤ y) (hy2 : y ≤ NY)
    (hb : borderZero NX NY t.spin) :
    borderZero NX NY (siteResult exp draws beta h x y t).spin := by
  intro i hi j hj hij
  have hne : ¬ ((i : ℤ) = x ∧ (j : ℤ) = y) := by omega
  simp only [siteResult, setSpin_other _ _ _ _ _ _ hne]
  exact hb i hi j hj hij

theorem siteResult_interiorPM {K : Type} [LinearOrderedField K] (NX NY : ℕ) (exp : K → K)
    (draws : ℕ → K) (beta h : K) (x y : ℕ) (t : State K)
    (hx1 : 1 ≤ x) (hx2 : x ≤ NX) (hy1 : 1 ≤ y) (hy2 : y ≤ NY)
    (hb : interiorPM NX NY t.spin) :
    interiorPM NX NY (siteResult exp draws beta h x y t).spin := by
  intro i hi j hj hi1 hj1
  by_cases hij : i = x ∧ j = y
  · obtain ⟨rfl, rfl⟩ := hij
    simp only [siteResult, setSpin_same]
    exact update_spin_pm exp draws _ _ _ (hb i hi j hj hi1 hj1)
  · have hne : ¬ ((i : ℤ) = x ∧ (j : ℤ) = y) := by omega
    simp only [siteResult, setSpin_other _ _ _ _ _ _ hne]
    exact hb i hi j hj hi1 hj1

theorem sweep_invariant {K : Type} [LinearOrderedField K] (NX NY : ℕ) (exp : K → K)
    (draws : ℕ → K) (beta h : K) (st : State K)
    (hst : borderZero NX NY st.spin ∧ interiorPM NX NY st.spin) :
    ∃ st', sweep NX NY exp draws beta h st = some st' ∧
      (borderZero NX NY st'.spin ∧ interiorPM NX NY st'.spin) :=
  sweep_inv NX NY exp draws beta h
    (fun _ _ t => borderZero NX NY t.spin ∧ interiorPM NX NY t.spin) st hst
    (fun x y t hx1 hx2 hy1 hy2 hP =>
      ⟨siteResult_borderZero NX NY exp draws beta h x y t hx1 hx2 hy1 hy2 hP.1,
        siteResult_interiorPM NX NY exp draws beta h x y t hx1 hx2 hy1 hy2 hP.2⟩)
    (fun _ _ _ _ hP => hP)

/-- After `InitializeHot` and `k` sweeps the program has a state, and it
satisfies both lattice invariants. -/
theorem reachable_invariant {K : Type} [LinearOrderedField K] (NX NY : ℕ) (exp : K → K)
    (draws : ℕ → K) (beta h : K) (st0 : State K) (k : ℕ) :
    ∃ st, (InitializeHot NX NY draws st0).bind (sweeps NX NY exp draws beta h k) = some st ∧
      (borderZero NX NY st.spin ∧ interiorPM NX NY st.spin) := by
  obtain ⟨t, ht, hb, hi⟩ := InitializeHot_spec NX NY draws st0
  obtain ⟨st, hst, hQ⟩ := sweeps_inv NX NY exp draws beta h
    (fun t => borderZero NX NY t.spin ∧ interiorPM NX NY t.spin)
    (fun u hu => sweep_invariant NX NY exp draws beta h u hu) k t ⟨hb, hi⟩
  exact ⟨st, by simp [ht, hst], hQ⟩

end Ising2d

/-! ## Rule for an interrupted sweep -/

namespace Ising2d

open Ising

theorem sweepUpTo_inv {K : Type} [LinearOrderedField K] (NX NY : ℕ) (exp : K → K)
    (draws : ℕ → K) (beta h : K) (P : ℕ → ℕ → State K → Prop) (st : State K)
    (h0 : P 1 1 st)
    (hstep : ∀ x y t, 1 ≤ x → x ≤ NX → 1 ≤ y → y ≤ NY → P x y t →
      P x (y + 1) (siteResult exp draws beta h x y t))
    (hrow : ∀ x t, 1 ≤ x → x ≤ NX → P x (NY + 1) t → P (x + 1) 1 t)
    (x y : ℕ) (hx1 : 1 ≤ x) (hx2 : x ≤ NX) (hy1 : 1 ≤ y) (hy2 : y ≤ NY) :
    ∃ st', sweepUpTo NX NY exp draws beta h x y st = some st' ∧ P x (y + 1) st' := by
  obtain ⟨t, ht, hPt⟩ := nested_inv (sweepSite NX NY exp draws beta h) P 1 x 1 (NY + 1)
    hx1 (by omega) st h0
    (fun a b u ha1 ha2 hb1 hb2 hu =>
      ⟨_, sweepSite_eq NX NY exp draws beta h a b u ha1 (by omega) hb1 (by omega),
        hstep a b u ha1 (by omega) hb1 (by omega) hu⟩)
    (fun a u ha1 ha2 hu => hrow a u ha1 (by omega) hu)
  obtain ⟨st', hst', hP'⟩ := forRange_inv (sweepSite NX NY exp draws beta h x)
    (fun b u => P x b u) 1 (y + 1) (by omega) t hPt
    (fun b u hb1 hb2 hu =>
      ⟨_, sweepSite_eq NX NY exp draws beta h x b u hx1 hx2 hb1 (by omega),
        hstep x b u hx1 hx2 hb1 (by omega) hu⟩)
  refine ⟨st', ?_, hP'⟩
  have e : forRange (sweepRow NX NY exp draws beta h) 1 x st = some t := ht
  simp only [sweepUpTo, e, Option.some_bind, hst']

end Ising2d

/-! ## The claims -/

/-- C1 (boundary invariant): for every prior content of the array, every
stream of deviates, every `beta`, `h` and every `k`, `InitializeHot` followed
by `k` calls of `sweep(beta, h)` runs to a state, and in that state every
border cell `spin[0][j]`, `spin[NX+1][j]`, `spin[i][0]`, `spin[i][NY+1]`
holds exactly 0. -/
theorem boundary_invariant {K : Type} [LinearOrderedField K] (NX NY : ℕ) (exp : K → K)
    (draws : ℕ → K) (beta h : K) (st0 : Ising2d.State K) (k : ℕ) :
    ∃ st, (Ising2d.InitializeHot NX NY draws st0).bind
        (Ising2d.sweeps NX NY exp draws beta h k) = some st ∧
      ∀ i : ℕ, i < NX + 2 → ∀ j : ℕ, j < NY + 2 →
        (i = 0 ∨ i = NX + 1 ∨ j = 0 ∨ j = NY + 1) → st.spin i j = 0 := by
  obtain ⟨st, hst, hb, _⟩ := Ising2d.reachable_invariant NX NY exp draws beta h st0 k
  exact ⟨st, hst, hb⟩

/-- C2 (spin-range invariant): for every prior content of the array, every
stream of deviates, every `beta`, `h` and every `k`, `InitializeHot`
followed by `k` calls of `sweep(beta, h)` runs to a state in which every
interior cell is `+1` or `-1`; and a further sweep interrupted right after
the call of `update_spin` at any interior site `(x, y)` also leaves every
interior cell equal to `+1` or `-1`. -/
theorem spin_range_invariant {K : Type} [LinearOrderedField K] (NX NY : ℕ) (exp : K → K)
    (draws : ℕ → K) (beta h : K) (st0 : Ising2d.State K) (k : ℕ) :
    ∃ st, (Ising2d.InitializeHot NX NY draws st0).bind
        (Ising2d.sweeps NX NY exp draws beta h k) = some st ∧
      Ising2d.interiorPM NX NY st.spin ∧
      ∀ x y : ℕ, 1 ≤ x → x ≤ NX → 1 ≤ y → y ≤ NY →
        ∃ st', Ising2d.sweepUpTo NX NY exp draws beta h x y st = some st' ∧
          Ising2d.interiorPM NX NY st'.spin := by
  obtain ⟨st, hst, _, hi⟩ := Ising2d.reachable_invariant NX NY exp draws beta h st0 k
  refine ⟨st, hst, hi, ?_⟩
  intro x y hx1 hx2 hy1 hy2
  exact Ising2d.sweepUpTo_inv NX NY exp draws beta h
    (fun _ _ t => Ising2d.interiorPM NX NY t.spin) st hi
    (fun a b t ha1 ha2 hb1 hb2 hP =>
      Ising2d.siteResult_interiorPM NX NY exp draws beta h a b t ha1 ha2 hb1 hb2 hP)
    (fun _ _ _ _ hP => hP) x y hx1 hx2 hy1 hy2

/-- C2, instance: on the `1 × 1` lattice over `ℚ`, after `InitializeHot` and
no sweep, the sweep interrupted after the site `(1, 1)` runs and leaves the
interior cell equal to `+1` or `-1`. -/
theorem spin_range_invariant_witness :
    ∃ st st', (Ising2d.InitializeHot 1 1 (fun _ => (0 : ℚ)) ⟨fun _ _ => 7, 0, []⟩).bind
        (Ising2d.sweeps 1 1 (fun _ => (0 : ℚ)) (fun _ => 0) 0 0 0) = some st ∧
      Ising2d.sweepUpTo 1 1 (fun _ => (0 : ℚ)) (fun _ => 0) 0 0 1 1 st = some st' ∧
      Ising2d.interiorPM 1 1 st'.spin := by
  obtain ⟨st, h1, _, h2⟩ := spin_range_invariant 1 1 (fun _ => (0 : ℚ)) (fun _ => 0) 0 0
    ⟨fun _ _ => 7, 0, []⟩ 0
  obtain ⟨st', h3, h4⟩ := h2 1 1 (by decide) (by decide) (by decide) (by decide)
  exact ⟨st, st', h1, h3, h4⟩

/-- C3 (unconditional acceptance): for every current spin `s` (in particular
for `s` in `{+1, -1}`), every environment and every stream of deviates, whenever
`DeltaBetaE = -(candidate - s) * env` is `≤ 0` the spin after the call is the
candidate; the outcome depends on no deviate after the one that fixes the
candidate.  For `update_spin` of `ising2d.cpp` and of `twospin.cpp` the
candidate is `+1` if the first deviate is `< 0.5` and `-1` otherwise; for
`update` of `onespin.cpp` it is `-s`. -/
theorem unconditional_acceptance {K : Type} [LinearOrderedField K] (exp : K → K)
    (draws : ℕ → K) (s : ℤ) (env : K) (drawn : ℕ) :
    (∀ cand : ℤ, cand = (if draws drawn < 1 / 2 then 1 else -1) →
      ((-(cand - s) : ℤ) : K) * env ≤ 0 →
      ∀ later : ℕ → K, later drawn = draws drawn →
        (Ising2d.update_spin exp later s env drawn).1 = cand ∧
        (TwoSpin.update_spin exp later s env drawn).1 = cand) ∧
    (((-(-s - s) : ℤ) : K) * env ≤ 0 →
      ∀ later : ℕ → K, (OneSpin.update exp later s env drawn).1 = -s) := by
  constructor
  · intro cand hc hd later hl
    subst hc
    unfold Ising2d.update_spin TwoSpin.update_spin Ising.drand48
    simp only [hl]
    rw [if_pos hd]
    exact ⟨rfl, rfl⟩
  · intro hd later
    unfold OneSpin.update
    simp only
    rw [if_pos hd]

/-- C3, instance: with the deviates all 0, current spin `-1` and environment
1, the candidate of `update_spin` is `+1`, `DeltaBetaE = -2`, and all three
update functions store the candidate. -/
theorem unconditional_acceptance_witness :
    (Ising2d.update_spin (fun _ => (0 : ℚ)) (fun _ => 0) (-1) 1 0).1 = 1 ∧
    (TwoSpin.update_spin (fun _ => (0 : ℚ)) (fun _ => 0) (-1) 1 0).1 = 1 ∧
    (OneSpin.update (fun _ => (0 : ℚ)) (fun _ => 0) (-1) 1 0).1 = -(-1) :=
  ⟨((unconditional_acceptance (fun _ => (0 : ℚ)) (fun _ => 0) (-1) 1 0).1 1
      (by norm_num) (by norm_num) (fun _ => 0) rfl).1,
    ((unconditional_acceptance (fun _ => (0 : ℚ)) (fun _ => 0) (-1) 1 0).1 1
      (by norm_num) (by norm_num) (fun _ => 0) rfl).2,
    (unconditional_acceptance (fun _ => (0 : ℚ)) (fun _ => 0) (-1) 1 0).2
      (by norm_num) (fun _ => 0)⟩

/-- C4 (stochastic acceptance): for every current spin `s` (in particular for
`s` in `{+1, -1}`) and every environment with
`DeltaBetaE = -(candidate - s) * env > 0`, the update draws exactly one
further deviate `u`, the spin after the call is the candidate if and only if
`u < exp(-DeltaBetaE)`, and otherwise it is the current spin `s`.  For
`update_spin` of `ising2d.cpp` and `twospin.cpp` the candidate comes from the
deviate number `drawn` and `u` is the deviate number `drawn + 1`; for `update`
of `onespin.cpp` the candidate is `-s` and `u` is the deviate number
`drawn`. -/
theorem stochastic_acceptance {K : Type} [LinearOrderedField K] (exp : K → K)
    (draws : ℕ → K) (s : ℤ) (env : K) (drawn : ℕ) :
    (∀ (cand : ℤ) (DeltaBetaE : K), cand = (if draws drawn < 1 / 2 then 1 else -1) →
      DeltaBetaE = ((-(cand - s) : ℤ) : K) * env → 0 < DeltaBetaE →
      ((Ising2d.update_spin exp draws s env drawn).2 = drawn + 2 ∧
        ((Ising2d.update_spin exp draws s env drawn).1 = cand ↔
          draws (drawn + 1) < exp (-DeltaBetaE)) ∧
        (¬ draws (drawn + 1) < exp (-DeltaBetaE) →
          (Ising2d.update_spin exp draws s env drawn).1 = s)) ∧
      ((TwoSpin.update_spin exp draws s env drawn).2 = drawn + 2 ∧
        ((TwoSpin.update_spin exp draws s env drawn).1 = cand ↔
          draws (drawn + 1) < exp (-DeltaBetaE)) ∧
        (¬ draws (drawn + 1) < exp (-DeltaBetaE) →
          (TwoSpin.update_spin exp draws s env drawn).1 = s))) ∧
    (∀ DeltaBetaE : K, DeltaBetaE = ((-(-s - s) : ℤ) : K) * env → 0 < DeltaBetaE →
      (OneSpin.update exp draws s env drawn).2 = drawn + 1 ∧
      ((OneSpin.update exp draws s env drawn).1 = -s ↔ draws drawn < exp (-DeltaBetaE)) ∧
      (¬ draws drawn < exp (-DeltaBetaE) → (OneSpin.update exp draws s env drawn).1 = s)) := by
  constructor
  · intro cand D hc hD hpos
    have hne : s ≠ cand := by
      intro e
      rw [hD, e] at hpos
      simp at hpos
    have hnle : ¬ D ≤ 0 := not_le.mpr hpos
    subst hc
    unfold Ising2d.update_spin TwoSpin.update_spin Ising.drand48
    simp only [← hD, if_neg hnle]
    by_cases hu : draws (drawn + 1) < exp (-D)
    · rw [if_pos hu]
      exact ⟨⟨rfl, ⟨fun _ => hu, fun _ => rfl⟩, fun hn => absurd hu hn⟩,
        ⟨rfl, ⟨fun _ => hu, fun _ => rfl⟩, fun hn => absurd hu hn⟩⟩
    · rw [if_neg hu]
      exact ⟨⟨rfl, ⟨fun e => absurd e hne, fun hn => absurd hn hu⟩, fun _ => rfl⟩,
        ⟨rfl, ⟨fun e => absurd e hne, fun hn => absurd hn hu⟩, fun _ => rfl⟩⟩
  · intro D hD hpos
    have hne : s ≠ -s := by
      intro e
      have e0 : -s - s = 0 := by omega
      rw [hD, e0] at hpos
      simp at hpos
    have hnle : ¬ D ≤ 0 := not_le.mpr hpos
    unfold OneSpin.update Ising.drand48
    simp only [← hD, if_neg hnle]
    by_cases hu : draws drawn < exp (-D)
    · rw [if_pos hu]
      exact ⟨rfl, ⟨fun _ => hu, fun _ => rfl⟩, fun hn => absurd hu hn⟩
    · rw [if_neg hu]
      exact ⟨rfl, ⟨fun e => absurd e hne, fun hn => absurd hn hu⟩, fun _ => rfl⟩

/-- C4, instance: deviates `0, 1/4, ...`, current spin `-1`, environment `-1`
and `exp` replaced by the constant `1/2`: the candidate is `+1`,
`DeltaBetaE = 2 > 0`, the second deviate `1/4` is below `1/2`, and both
`update_spin` store `+1` after two draws. -/
theorem stochastic_acceptance_witness :
    (Ising2d.update_spin (fun _ => (1 / 2 : ℚ)) (fun n => (n : ℚ) / 4) (-1) (-1) 0).2 = 0 + 2 ∧
    ((Ising2d.update_spin (fun _ => (1 / 2 : ℚ)) (fun n => (n : ℚ) / 4) (-1) (-1) 0).1 = 1 ↔
      ((0 + 1 : ℕ) : ℚ) / 4 < 1 / 2) :=
  ⟨((stochastic_acceptance (fun _ => (1 / 2 : ℚ)) (fun n => (n : ℚ) / 4) (-1) (-1) 0).1 1 2
      (by norm_num) (by norm_num) (by norm_num)).1.1,
    ((stochastic_acceptance (fun _ => (1 / 2 : ℚ)) (fun n => (n : ℚ) / 4) (-1) (-1) 0).1 1 2
      (by norm_num) (by norm_num) (by norm_num)).1.2.1⟩

/-! ## Sums of interior cells -/

namespace Ising2d

open Ising

theorem wrapInt_eq (x : ℤ) (h1 : -2 ^ 31 ≤ x) (h2 : x < 2 ^ 31) : wrapInt x = x := by
  unfold wrapInt; omega

theorem wrapLong_eq (x : ℤ) (h1 : -2 ^ 63 ≤ x) (h2 : x < 2 ^ 63) : wrapLong x = x := by
  unfold wrapLong; omega

theorem sitesBefore_start (NY : ℕ) : sitesBefore NY 1 1 = 0 := by
  simp [sitesBefore]

theorem sitesBefore_step (NY cx cy : ℕ) (hy : 1 ≤ cy) :
    sitesBefore NY cx (cy + 1) = sitesBefore NY cx cy + 1 := by
  unfold sitesBefore; omega

theorem sitesBefore_row (NY cx : ℕ) (hx : 1 ≤ cx) :
    sitesBefore NY (cx + 1) 1 = sitesBefore NY cx (NY + 1) := by
  unfold sitesBefore
  obtain ⟨c, rfl⟩ : ∃ c, cx = c + 1 := ⟨cx - 1, by omega⟩
  simp [Nat.succ_mul]

theorem sitesBefore_end (NX NY : ℕ) : sitesBefore NY (NX + 1) 1 = NX * NY := by
  simp [sitesBefore]

theorem sitesBefore_lt (NX NY cx cy : ℕ) (hx1 : 1 ≤ cx) (hx2 : cx ≤ NX) (hy1 : 1 ≤ cy)
    (hy2 : cy ≤ NY) : sitesBefore NY cx cy < NX * NY := by
  have h1 : sitesBefore NY cx cy < sitesBefore NY cx (NY + 1) := by
    unfold sitesBefore; omega
  have h2 : sitesBefore NY cx (NY + 1) = cx * NY := by
    rw [← sitesBefore_row NY cx hx1]; simp [sitesBefore]
  have h3 : cx * NY ≤ NX * NY := Nat.mul_le_mul_right NY hx2
  omega

theorem partialSum_start (NY : ℕ) (spin : ℤ → ℤ → ℤ) : partialSum NY spin 1 1 = 0 := by
  simp [partialSum, rowSum]

theorem partialSum_step (NY : ℕ) (spin : ℤ → ℤ → ℤ) (cx cy : ℕ) (hy : 1 ≤ cy) :
    partialSum NY spin cx (cy + 1) = partialSum NY spin cx cy + spin cx cy := by
  unfold partialSum rowSum
  rw [Finset.sum_Ico_succ_top hy]
  ring

theorem partialSum_row (NY : ℕ) (spin : ℤ → ℤ → ℤ) (cx : ℕ) (hx : 1 ≤ cx) :
    partialSum NY spin (cx + 1) 1 = partialSum NY spin cx (NY + 1) := by
  unfold partialSum
  rw [Finset.sum_Ico_succ_top hx]
  simp [rowSum]

theorem partialSum_end (NX NY : ℕ) (spin : ℤ → ℤ → ℤ) :
    partialSum NY spin (NX + 1) 1 = interiorSum NX NY spin := by
  simp [partialSum, rowSum, interiorSum]

/-- The interior sum of a lattice of `+1` and `-1` cells is the number of
sites minus twice the number of `-1` cells; here as two bounds and the two
cases of equality. -/
theorem interiorSum_facts (NX NY : ℕ) (spin : ℤ → ℤ → ℤ) (hpm : interiorPM NX NY spin) :
    (-((NX * NY : ℕ) : ℤ) ≤ interiorSum NX NY spin ∧
      interiorSum NX NY spin ≤ ((NX * NY : ℕ) : ℤ)) ∧
    (interiorSum NX NY spin = ((NX * NY : ℕ) : ℤ) ↔
      ∀ x : ℕ, x < NX + 1 → ∀ y : ℕ, y < NY + 1 → 1 ≤ x → 1 ≤ y → spin x y = 1) ∧
    (interiorSum NX NY spin = -((NX * NY : ℕ) : ℤ) ↔
      ∀ x : ℕ, x < NX + 1 → ∀ y : ℕ, y < NY + 1 → 1 ≤ x → 1 ≤ y → spin x y = -1) := by
  have hcell : ∀ x ∈ Finset.Ico 1 (NX + 1), ∀ y ∈ Finset.Ico 1 (NY + 1),
      spin x y = 1 ∨ spin x y = -1 := by
    intro x hx y hy
    rw [Finset.mem_Ico] at hx hy
    exact hpm x hx.2 y hy.2 hx.1 hy.1
  have hcount : ∑ x in Finset.Ico 1 (NX + 1), ∑ y in Finset.Ico 1 (NY + 1), (1 : ℤ)
      = ((NX * NY : ℕ) : ℤ) := by
    simp
  have hminus : ∑ x in Finset.Ico 1 (NX + 1), ∑ y in Finset.Ico 1 (NY + 1), (1 - spin x y)
      = ((NX * NY : ℕ) : ℤ) - interiorSum NX NY spin := by
    rw [← hcount]
    unfold interiorSum
    simp only [Finset.sum_sub_distrib]
  have hplus : ∑ x in Finset.Ico 1 (NX + 1), ∑ y in Finset.Ico 1 (NY + 1), (1 + spin x y)
      = ((NX * NY : ℕ) : ℤ) + interiorSum NX NY spin := by
    rw [← hcount]
    unfold interiorSum
    simp only [Finset.sum_add_distrib]
  have hm0 : ∀ x ∈ Finset.Ico 1 (NX + 1), ∀ y ∈ Finset.Ico 1 (NY + 1), 0 ≤ 1 - spin x y := by
    intro x hx y hy
    rcases hcell x hx y hy with e | e <;> rw [e] <;> decide
  have hp0 : ∀ x ∈ Finset.Ico 1 (NX + 1), ∀ y ∈ Finset.Ico 1 (NY + 1), 0 ≤ 1 + spin x y := by
    intro x hx y hy
    rcases hcell x hx y hy with e | e <;> rw [e] <;> decide
  have hmr : ∀ x ∈ Finset.Ico 1 (NX + 1), 0 ≤ ∑ y in Finset.Ico 1 (NY + 1), (1 - spin x y) :=
    fun x hx => Finset.sum_nonneg (hm0 x hx)
  have hpr : ∀ x ∈ Finset.Ico 1 (NX + 1), 0 ≤ ∑ y in Finset.Ico 1 (NY + 1), (1 + spin x y) :=
    fun x hx => Finset.sum_nonneg (hp0 x hx)
  have hm : 0 ≤ ((NX * NY : ℕ) : ℤ) - interiorSum NX NY spin := by
    rw [← hminus]; exact Finset.sum_nonneg hmr
  have hp : 0 ≤ ((NX * NY : ℕ) : ℤ) + interiorSum NX NY spin := by
    rw [← hplus]; exact Finset.sum_nonneg hpr
  refine ⟨⟨by omega, by omega⟩, ?_, ?_⟩
  · constructor
    · intro e x hx y hy hx1 hy1
      have h0 : ∑ x in Finset.Ico 1 (NX + 1), ∑ y in Finset.Ico 1 (NY + 1), (1 - spin x y) = 0 := by
        rw [hminus]; omega
      have hxm : x ∈ Finset.Ico 1 (NX + 1) := Finset.mem_Ico.mpr ⟨hx1, hx⟩
      have hym : y ∈ Finset.Ico 1 (NY + 1) := Finset.mem_Ico.mpr ⟨hy1, hy⟩
      have h1 := (Finset.sum_eq_zero_iff_of_nonneg hmr).mp h0 x hxm
      have h2 := (Finset.sum_eq_zero_iff_of_nonneg (hm0 x hxm)).mp h1 y hym
      omega
    · intro hall
      have h0 : ∑ x in Finset.Ico 1 (NX + 1), ∑ y in Finset.Ico 1 (NY + 1), (1 - spin x y) = 0 := by
        apply Finset.sum_eq_zero
        intro x hx
        apply Finset.sum_eq_zero
        intro y hy
        rw [Finset.mem_Ico] at hx hy
        rw [hall x hx.2 y hy.2 hx.1 hy.1]; rfl
      rw [hminus] at h0; omega
  · constructor
    · intro e x hx y hy hx1 hy1
      have h0 : ∑ x in Finset.Ico 1 (NX + 1), ∑ y in Finset.Ico 1 (NY + 1), (1 + spin x y) = 0 := by
        rw [hplus]; omega
      have hxm : x ∈ Finset.Ico 1 (NX + 1) := Finset.mem_Ico.mpr ⟨hx1, hx⟩
      have hym : y ∈ Finset.Ico 1 (NY + 1) := Finset.mem_Ico.mpr ⟨hy1, hy⟩
      have h1 := (Finset.sum_eq_zero_iff_of_nonneg hpr).mp h0 x hxm
      have h2 := (Finset.sum_eq_zero_iff_of_nonneg (hp0 x hxm)).mp h1 y hym
      omega
    · intro hall
      have h0 : ∑ x in Finset.Ico 1 (NX + 1), ∑ y in Finset.Ico 1 (NY + 1), (1 + spin x y) = 0 := by
        apply Finset.sum_eq_zero
        intro x hx
        apply Finset.sum_eq_zero
        intro y hy
        rw [Finset.mem_Ico] at hx hy
        rw [hall x hx.2 y hy.2 hx.1 hy.1]; rfl
      rw [hplus] at h0; omega

end Ising2d

namespace Ising2d

open Ising

theorem interiorPM_cell_bounds (NX NY : ℕ) (spin : ℤ → ℤ → ℤ) (hpm : interiorPM NX NY spin)
    (x y : ℕ) (hx1 : 1 ≤ x) (hx2 : x ≤ NX) (hy1 : 1 ≤ y) (hy2 : y ≤ NY) :
    -1 ≤ spin x y ∧ spin x y ≤ 1 := by
  rcases hpm x (by omega) y (by omega) hx1 hy1 with e | e <;> rw [e] <;> decide

/-- The summation loop of `Magnetization()` returns the interior sum, without
overflow of the `int` accumulator. -/
theorem magSum_eq (NX NY : ℕ) (hsz : NX * NY < 2 ^ 31) (spin : ℤ → ℤ → ℤ)
    (hpm : interiorPM NX NY spin) : magSum NX NY spin = some (interiorSum NX NY spin) := by
  obtain ⟨r, hr, hP, _⟩ := nested_inv
    (fun nx ny (nmag : ℤ) => (readSpin NX NY spin nx ny).bind fun s => some (wrapInt (nmag + s)))
    (fun cx cy (nmag : ℤ) => nmag = partialSum NY spin cx cy ∧
      (-(sitesBefore NY cx cy : ℤ) ≤ nmag ∧ nmag ≤ (sitesBefore NY cx cy : ℤ)))
    1 (NX + 1) 1 (NY + 1) (by omega) (by omega) 0
    (by simp [partialSum_start, sitesBefore_start])
    (by
      intro x y t hx1 hx2 hy1 hy2 hP
      obtain ⟨hP1, hP2, hP3⟩ := hP
      have hin : inExtent NX NY (x : ℤ) (y : ℤ) := by unfold inExtent; omega
      have hc := interiorPM_cell_bounds NX NY spin hpm x y hx1 (by omega) hy1 (by omega)
      have hlt := sitesBefore_lt NX NY x y hx1 (by omega) hy1 (by omega)
      have hw : wrapInt (t + spin x y) = t + spin x y := by
        apply wrapInt_eq <;> omega
      refine ⟨t + spin x y, ?_, ?_, ?_, ?_⟩
      · simp only [readSpin_of_inExtent _ hin, Option.some_bind, hw]
      · rw [partialSum_step NY spin x y hy1, hP1]
      · rw [sitesBefore_step NY x y hy1]; push_cast; omega
      · rw [sitesBefore_step NY x y hy1]; push_cast; omega)
    (by
      intro x t hx1 _ hP
      rw [partialSum_row NY spin x hx1, sitesBefore_row NY x hx1]
      exact hP)
  rw [partialSum_end] at hP
  unfold magSum
  rw [← hP]
  exact hr

end Ising2d

/-- C5 (magnetization bound): on a lattice of at least one site (and of fewer
than `2^31` sites, so that the `int` accumulator cannot overflow) whose
interior cells are all `+1` or `-1`, `Magnetization()` returns the sum of the
`NX*NY` interior spins divided by `NX*NY`; the value lies in `[-1, 1]`, and
it is `+1` (resp. `-1`) if and only if every interior spin is `+1` (resp.
`-1`).  The program has `NX = NY = 64`. -/
theorem magnetization_bound {K : Type} [LinearOrderedField K] (NX NY : ℕ)
    (hNX : 1 ≤ NX) (hNY : 1 ≤ NY) (hsz : NX * NY < 2 ^ 31) (spin : ℤ → ℤ → ℤ)
    (hpm : Ising2d.interiorPM NX NY spin) :
    ∃ m : K, Ising2d.Magnetization NX NY spin = some m ∧
      m = ((Ising2d.interiorSum NX NY spin : ℤ) : K) / ((NX * NY : ℕ) : K) ∧
      -1 ≤ m ∧ m ≤ 1 ∧
      (m = 1 ↔
        ∀ x : ℕ, x < NX + 1 → ∀ y : ℕ, y < NY + 1 → 1 ≤ x → 1 ≤ y → spin x y = 1) ∧
      (m = -1 ↔
        ∀ x : ℕ, x < NX + 1 → ∀ y : ℕ, y < NY + 1 → 1 ≤ x → 1 ≤ y → spin x y = -1) := by
  obtain ⟨⟨hlo, hhi⟩, hone, hmone⟩ := Ising2d.interiorSum_facts NX NY spin hpm
  have hNpos : 0 < NX * NY := Nat.mul_pos (by omega) (by omega)
  have hN : (0 : K) < ((NX * NY : ℕ) : K) := by exact_mod_cast hNpos
  have hw : Ising.wrapInt ((NX : ℤ) * (NY : ℤ)) = ((NX * NY : ℕ) : ℤ) := by
    rw [Ising2d.wrapInt_eq] <;> push_cast <;> [rfl; skip; skip]
    · have : (0 : ℤ) ≤ (NX : ℤ) * (NY : ℤ) := by positivity
      omega
    · have : ((NX * NY : ℕ) : ℤ) < 2 ^ 31 := by exact_mod_cast hsz
      push_cast at this; exact this
  refine ⟨((Ising2d.interiorSum NX NY spin : ℤ) : K) / ((NX * NY : ℕ) : K), ?_, rfl, ?_, ?_, ?_, ?_⟩
  · unfold Ising2d.Magnetization
    rw [Ising2d.magSum_eq NX NY hsz spin hpm, Option.some_bind, hw]
    simp
  · rw [le_div_iff₀ hN]
    have : ((-((NX * NY : ℕ) : ℤ) : ℤ) : K) ≤ ((Ising2d.interiorSum NX NY spin : ℤ) : K) :=
      Int.cast_le.mpr hlo
    push_cast at this ⊢
    linarith
  · rw [div_le_iff₀ hN]
    have : ((Ising2d.interiorSum NX NY spin : ℤ) : K) ≤ ((((NX * NY : ℕ) : ℤ) : ℤ) : K) :=
      Int.cast_le.mpr hhi
    push_cast at this ⊢
    linarith
  · rw [div_eq_iff (ne_of_gt hN), one_mul, ← hone]
    constructor
    · intro e
      have : ((Ising2d.interiorSum NX NY spin : ℤ) : K) = ((((NX * NY : ℕ) : ℤ) : ℤ) : K) := by
        rw [e]; push_cast; rfl
      exact Int.cast_injective this
    · intro e
      rw [e]; push_cast; rfl
  · rw [div_eq_iff (ne_of_gt hN), ← hmone]
    constructor
    · intro e
      have : ((Ising2d.interiorSum NX NY spin : ℤ) : K) = ((-((NX * NY : ℕ) : ℤ) : ℤ) : K) := by
        rw [e]; push_cast; ring
      exact Int.cast_injective this
    · intro e
      rw [e]; push_cast; ring

/-- C5, instance: on the `64 × 64` lattice of the program, with every cell
holding `+1`, the magnetization over `ℚ` exists and lies in `[-1, 1]`. -/
theorem magnetization_bound_witness :
    ∃ m : ℚ, Ising2d.Magnetization 64 64 (fun _ _ => 1) = some m ∧ -1 ≤ m ∧ m ≤ 1 := by
  obtain ⟨m, h1, _, h2, h3, _⟩ := magnetization_bound (K := ℚ) 64 64 (by decide) (by decide)
    (by norm_num) (fun _ _ => 1) (fun _ _ _ _ _ _ => Or.inl rfl)
  exact ⟨m, h1, h2, h3⟩

namespace Ising2d

open Ising

theorem update_spin_env_zero {K : Type} [LinearOrderedField K] (exp : K → K)
    (draws : ℕ → K) (s : ℤ) (drawn : ℕ) :
    update_spin exp draws s 0 drawn = ((if draws drawn < 1 / 2 then 1 else -1), drawn + 1) := by
  unfold update_spin drand48
  simp

theorem siteEnv_zero {K : Type} [LinearOrderedField K] (spin : ℤ → ℤ → ℤ) (nx ny : ℕ) :
    siteEnv (0 : K) 0 spin nx ny = 0 := by
  simp [siteEnv]

end Ising2d

/-- C6 (zero-field high-temperature limit): with `beta = 0` and `h = 0`, for
every lattice state (in particular every state with border 0 and interior
`+1`/`-1`) and every stream of deviates, one call of `sweep` runs to a state,
consumes exactly `NX*NY` deviates, and leaves every interior site `(x, y)`
equal to `+1` if the deviate number `(x-1)*NY + (y-1)` of the sweep is
`< 0.5` and to `-1` otherwise, whatever the site held before. -/
theorem zero_field_high_temperature {K : Type} [LinearOrderedField K] (NX NY : ℕ)
    (exp : K → K) (draws : ℕ → K) (st : Ising2d.State K) :
    ∃ st', Ising2d.sweep NX NY exp draws 0 0 st = some st' ∧
      st'.drawn = st.drawn + NX * NY ∧
      ∀ x y : ℕ, 1 ≤ x → x ≤ NX → 1 ≤ y → y ≤ NY →
        st'.spin x y
          = if draws (st.drawn + ((x - 1) * NY + (y - 1))) < 1 / 2 then 1 else -1 := by
  obtain ⟨st', hst', hd, hP⟩ := Ising2d.sweep_inv NX NY exp draws 0 0
    (fun cx cy t => t.drawn = st.drawn + Ising2d.sitesBefore NY cx cy ∧
      ∀ x y : ℕ, 1 ≤ x → x ≤ NX → 1 ≤ y → y ≤ NY → (x < cx ∨ (x = cx ∧ y < cy)) →
        t.spin x y
          = if draws (st.drawn + Ising2d.sitesBefore NY x y) < 1 / 2 then 1 else -1)
    st
    ⟨by simp [Ising2d.sitesBefore_start], by intro x y _ _ _ _ hlt; omega⟩
    (by
      intro cx cy t hx1 hx2 hy1 hy2 hP
      obtain ⟨hd, hP⟩ := hP
      simp only [Ising2d.siteResult, Ising2d.siteEnv_zero, Ising2d.update_spin_env_zero]
      refine ⟨by rw [hd, Ising2d.sitesBefore_step NY cx cy hy1]; omega, ?_⟩
      intro x y hx1' hx2' hy1' hy2' hlt
      by_cases hxy : x = cx ∧ y = cy
      · obtain ⟨rfl, rfl⟩ := hxy
        rw [Ising2d.setSpin_same, hd]
      · have hne : ¬ ((x : ℤ) = cx ∧ (y : ℤ) = cy) := by omega
        rw [Ising2d.setSpin_other _ _ _ _ _ _ hne]
        exact hP x y hx1' hx2' hy1' hy2' (by omega))
    (by
      intro cx t hx1 hx2 hP
      obtain ⟨hd, hP⟩ := hP
      refine ⟨by rw [hd, Ising2d.sitesBefore_row NY cx hx1], ?_⟩
      intro x y hx1' hx2' hy1' hy2' hlt
      exact hP x y hx1' hx2' hy1' hy2' (by omega))
  refine ⟨st', hst', by rw [hd, Ising2d.sitesBefore_end], ?_⟩
  intro x y hx1 hx2 hy1 hy2
  exact hP x y hx1 hx2 hy1 hy2 (by omega)

/-- C6, instance: on a `1 × 2` lattice over `ℚ` with the deviates
`0, 1, 2, ...`, one sweep at `beta = h = 0` draws two deviates and leaves
`+1` at `(1, 1)` (deviate `0 < 1/2`) and `-1` at `(1, 2)` (deviate `1`). -/
theorem zero_field_high_temperature_witness :
    ∃ st', Ising2d.sweep 1 2 (fun _ => (0 : ℚ)) (fun n => (n : ℚ)) 0 0
        ⟨fun _ _ => -1, 0, []⟩ = some st' ∧
      st'.drawn = 2 ∧ st'.spin 1 1 = 1 ∧ st'.spin 1 2 = -1 := by
  obtain ⟨st', h1, h2, h3⟩ := zero_field_high_temperature 1 2 (fun _ => (0 : ℚ))
    (fun n => (n : ℚ)) ⟨fun _ _ => -1, 0, []⟩
  refine ⟨st', h1, by simpa using h2, ?_, ?_⟩
  · have e := h3 1 1 (by decide) (by decide) (by decide) (by decide)
    norm_num at e
    exact e
  · have e := h3 1 2 (by decide) (by decide) (by decide) (by decide)
    norm_num at e
    exact e

/-! ## The order of the sites -/

namespace Ising2d

open Ising

theorem sitesUpTo_start (NY : ℕ) : sitesUpTo NY 1 1 = [] := by
  simp [sitesUpTo]

theorem sitesUpTo_step (NY cx cy : ℕ) (hy : 1 ≤ cy) :
    sitesUpTo NY cx (cy + 1) = sitesUpTo NY cx cy ++ [(cx, cy)] := by
  obtain ⟨c, rfl⟩ : ∃ c, cy = c + 1 := ⟨cy - 1, by omega⟩
  simp [sitesUpTo, List.range'_1_concat, Nat.add_comm]

theorem sitesUpTo_row (NY cx : ℕ) (hx : 1 ≤ cx) :
    sitesUpTo NY (cx + 1) 1 = sitesUpTo NY cx (NY + 1) := by
  obtain ⟨c, rfl⟩ : ∃ c, cx = c + 1 := ⟨cx - 1, by omega⟩
  simp [sitesUpTo, List.range'_1_concat, List.flatMap_append, Nat.add_comm]

theorem sitesUpTo_end (NX NY : ℕ) : sitesUpTo NY (NX + 1) 1 = rowMajor NX NY := by
  simp [sitesUpTo, rowMajor]

theorem mem_rowMajor (NX NY : ℕ) (p : ℕ × ℕ) :
    p ∈ rowMajor NX NY ↔ (1 ≤ p.1 ∧ p.1 ≤ NX) ∧ (1 ≤ p.2 ∧ p.2 ≤ NY) := by
  obtain ⟨a, b⟩ := p
  simp only [rowMajor, List.mem_flatMap, List.mem_map, List.mem_range'_1, Prod.mk.injEq]
  constructor
  · rintro ⟨x, hx, y, hy, rfl, rfl⟩
    exact ⟨⟨hx.1, by omega⟩, ⟨hy.1, by omega⟩⟩
  · rintro ⟨hx, hy⟩
    exact ⟨a, ⟨hx.1, by omega⟩, b, ⟨hy.1, by omega⟩, rfl, rfl⟩

theorem nodup_rowMajor (NX NY : ℕ) : (rowMajor NX NY).Nodup := by
  unfold rowMajor
  rw [List.nodup_flatMap]
  constructor
  · intro x _
    apply List.Nodup.map
    · intro a b hab
      exact (Prod.mk.injEq _ _ _ _ ▸ hab : x = x ∧ a = b).2
    · exact List.nodup_range' 1 NY
  · have hnd : (List.range' 1 NX).Nodup := List.nodup_range' 1 NX
    refine List.Pairwise.imp_of_mem ?_ hnd
    intro a b _ _ hab
    show List.Disjoint _ _
    intro p hp1 hp2
    simp only [List.mem_map] at hp1 hp2
    obtain ⟨y1, _, rfl⟩ := hp1
    obtain ⟨y2, _, h2⟩ := hp2
    exact hab (Prod.mk.inj h2).1.symm

theorem length_rowMajor (NX NY : ℕ) : (rowMajor NX NY).length = NX * NY := by
  unfold rowMajor
  induction NX with
  | zero => simp
  | succ n ih =>
    rw [List.range'_1_concat, List.flatMap_append, List.length_append, ih]
    simp [Nat.succ_mul]

end Ising2d

/-! ## The calls of one sweep -/

namespace Ising2d

open Ising

theorem update_spin_snd_cases {K : Type} [LinearOrderedField K] (exp : K → K)
    (draws : ℕ → K) (s : ℤ) (env : K) (drawn : ℕ) :
    (update_spin exp draws s env drawn).2 = drawn + 1 ∨
      (update_spin exp draws s env drawn).2 = drawn + 2 := by
  unfold update_spin drand48
  simp only
  split_ifs <;> first | exact Or.inl rfl | exact Or.inr rfl

/-- What one call of `sweep` does, site by site.  `pos k` is the number of
deviates drawn when the call number `k` of `update_spin` is made; that call is
at the site `(x, y)` with `k = (x-1)*NY + (y-1)`, on the value the cell had
when the sweep started, with the environment formed from the neighbours as
they are at that moment, and its result is what the cell holds when the sweep
ends. -/
theorem sweep_trace {K : Type} [LinearOrderedField K] (NX NY : ℕ)
    (exp : K → K) (draws : ℕ → K) (beta h : K) (S : State K) :
    ∃ S', sweep NX NY exp draws beta h S = some S' ∧
      ∃ (added : List (ℕ × ℕ × K)) (pos : ℕ → ℕ), S'.calls = S.calls ++ added ∧
        added.length = NX * NY ∧
        added.map (fun c => (c.1, c.2.1)) = rowMajor NX NY ∧
        pos 0 = S.drawn ∧ pos (NX * NY) = S'.drawn ∧
        (∀ x y : ℕ, 1 ≤ x → x ≤ NX → 1 ≤ y → y ≤ NY →
          added[(x - 1) * NY + (y - 1)]? = some (x, y,
            beta * ((S'.spin ((x : ℤ) - 1) y + S'.spin x ((y : ℤ) - 1)
              + S.spin ((x : ℤ) + 1) y + S.spin x ((y : ℤ) + 1) : ℤ) : K) + h) ∧
          update_spin exp draws (S.spin x y)
              (beta * ((S'.spin ((x : ℤ) - 1) y + S'.spin x ((y : ℤ) - 1)
                + S.spin ((x : ℤ) + 1) y + S.spin x ((y : ℤ) + 1) : ℤ) : K) + h)
              (pos ((x - 1) * NY + (y - 1)))
            = (S'.spin x y, pos ((x - 1) * NY + (y - 1) + 1))) ∧
        (∀ i j : ℤ, ¬ (1 ≤ i ∧ i ≤ (NX : ℤ) ∧ 1 ≤ j ∧ j ≤ (NY : ℤ)) →
          S'.spin i j = S.spin i j) ∧
        S.drawn + NX * NY ≤ S'.drawn ∧ S'.drawn ≤ S.drawn + 2 * (NX * NY) := by
  obtain ⟨S', hS', ⟨added, pos, hc, hlen, hmap, hp0, hpk, hlog⟩, hframe, hd1, hd2⟩ :=
    sweep_inv NX NY exp draws beta h
    (fun cx cy t =>
      (∃ (added : List (ℕ × ℕ × K)) (pos : ℕ → ℕ), t.calls = S.calls ++ added ∧
        added.length = sitesBefore NY cx cy ∧
        added.map (fun c => (c.1, c.2.1)) = sitesUpTo NY cx cy ∧
        pos 0 = S.drawn ∧ pos (sitesBefore NY cx cy) = t.drawn ∧
        ∀ x y : ℕ, 1 ≤ x → x ≤ NX → 1 ≤ y → y ≤ NY → (x < cx ∨ (x = cx ∧ y < cy)) →
          added[sitesBefore NY x y]? = some (x, y,
            beta * ((t.spin ((x : ℤ) - 1) y + t.spin x ((y : ℤ) - 1)
              + S.spin ((x : ℤ) + 1) y + S.spin x ((y : ℤ) + 1) : ℤ) : K) + h) ∧
          update_spin exp draws (S.spin x y)
              (beta * ((t.spin ((x : ℤ) - 1) y + t.spin x ((y : ℤ) - 1)
                + S.spin ((x : ℤ) + 1) y + S.spin x ((y : ℤ) + 1) : ℤ) : K) + h)
              (pos (sitesBefore NY x y))
            = (t.spin x y, pos (sitesBefore NY x y + 1))) ∧
      (∀ i j : ℤ, ((cx : ℤ) < i ∨ (i = cx ∧ (cy : ℤ) ≤ j) ∨ j < 1 ∨ (NY : ℤ) < j ∨ i < 1) →
        t.spin i j = S.spin i j) ∧
      S.drawn + sitesBefore NY cx cy ≤ t.drawn ∧
      t.drawn ≤ S.drawn + 2 * sitesBefore NY cx cy)
    S
    ⟨⟨[], fun _ => S.drawn, by simp, by simp [sitesBefore_start],
        by simp [sitesUpTo_start], rfl, rfl, by intro x y _ _ _ _ hlt; omega⟩,
      fun _ _ _ => rfl, by simp [sitesBefore_start], by simp [sitesBefore_start]⟩
    (by
      intro cx cy t hx1 hx2 hy1 hy2 hP
      obtain ⟨⟨added, pos, hc, hlen, hmap, hp0, hpk, hlog⟩, hframe, hd1, hd2⟩ := hP
      have henv : siteEnv beta h t.spin cx cy
          = beta * ((t.spin ((cx : ℤ) - 1) cy + t.spin cx ((cy : ℤ) - 1)
              + S.spin ((cx : ℤ) + 1) cy + S.spin cx ((cy : ℤ) + 1) : ℤ) : K) + h := by
        have e1 := hframe ((cx : ℤ) + 1) cy (by omega)
        have e2 := hframe cx ((cy : ℤ) + 1) (by omega)
        rw [← e1, ← e2]
        simp only [siteEnv]
        congr 2
        push_cast
        ring
      have hcell : t.spin cx cy = S.spin cx cy := hframe cx cy (by omega)
      have hstepk := sitesBefore_step NY cx cy hy1
      refine ⟨⟨added ++ [(cx, cy, siteEnv beta h t.spin cx cy)],
        Function.update pos (sitesBefore NY cx cy + 1)
          (update_spin exp draws (t.spin cx cy) (siteEnv beta h t.spin cx cy) t.drawn).2,
        ?_, ?_, ?_, ?_, ?_, ?_⟩, ?_, ?_, ?_⟩
      · simp [siteResult, hc]
      · rw [List.length_append, hlen, hstepk]; rfl
      · rw [sitesUpTo_step NY cx cy hy1, List.map_append, hmap]; rfl
      · rw [Function.update_noteq (by omega)]; exact hp0
      · rw [hstepk, Function.update_same]; rfl
      · intro x y hx1' hx2' hy1' hy2' hlt
        have hn1 : ¬ ((x : ℤ) - 1 = cx ∧ (y : ℤ) = cy) := by omega
        have hn2 : ¬ ((x : ℤ) = cx ∧ (y : ℤ) - 1 = cy) := by omega
        simp only [siteResult, setSpin_other _ _ _ _ _ _ hn1, setSpin_other _ _ _ _ _ _ hn2]
        by_cases hxy : x = cx ∧ y = cy
        · obtain ⟨rfl, rfl⟩ := hxy
          rw [← henv, ← hlen, List.getElem?_concat_length, setSpin_same,
            Function.update_same, Function.update_noteq (by omega), hlen, hpk, ← hcell]
          exact ⟨rfl, rfl⟩
        · obtain ⟨hold1, hold2⟩ := hlog x y hx1' hx2' hy1' hy2' (by omega)
          have hlt' : sitesBefore NY x y < added.length :=
            (List.getElem?_eq_some.mp hold1).1
          have hne : ¬ ((x : ℤ) = cx ∧ (y : ℤ) = cy) := by omega
          rw [List.getElem?_append_left hlt', setSpin_other _ _ _ _ _ _ hne,
            Function.update_noteq (by omega), Function.update_noteq (by omega)]
          exact ⟨hold1, hold2⟩
      · intro i j hij
        have hne : ¬ (i = cx ∧ j = cy) := by omega
        simp only [siteResult, setSpin_other _ _ _ _ _ _ hne]
        exact hframe i j (by omega)
      · have := update_spin_snd_cases exp draws (t.spin cx cy)
          (siteEnv beta h t.spin cx cy) t.drawn
        simp only [siteResult]
        omega
      · have := update_spin_snd_cases exp draws (t.spin cx cy)
          (siteEnv beta h t.spin cx cy) t.drawn
        simp only [siteResult]
        omega)
    (by
      intro cx t hx1 hx2 hP
      obtain ⟨⟨added, pos, hc, hlen, hmap, hp0, hpk, hlog⟩, hframe, hd1, hd2⟩ := hP
      have hrow := sitesBefore_row NY cx hx1
      refine ⟨⟨added, pos, hc, by rw [hlen, hrow],
        by rw [sitesUpTo_row NY cx hx1]; exact hmap, hp0, by rw [hrow]; exact hpk, ?_⟩,
        ?_, by rw [hrow]; exact hd1, by rw [hrow]; exact hd2⟩
      · intro x y hx1' hx2' hy1' hy2' hlt
        exact hlog x y hx1' hx2' hy1' hy2' (by omega)
      · intro i j hij
        exact hframe i j (by omega))
  rw [sitesBefore_end] at hlen hpk hd1 hd2
  rw [sitesUpTo_end] at hmap
  refine ⟨S', hS', added, pos, hc, hlen, hmap, hp0, hpk, ?_, ?_, hd1, hd2⟩
  · intro x y hx1 hx2 hy1 hy2
    exact hlog x y hx1 hx2 hy1 hy2 (by omega)
  · intro i j hij
    exact hframe i j (by omega)

end Ising2d

/-- C7 (one sweep is `NX*NY` update attempts in row-major order): from every
state one call of `sweep` runs to a state and makes exactly `NX*NY` calls of
`update_spin`, at the sites of `rowMajor NX NY` in that order (`x` ascending,
`y` ascending within each `x`); that list has no repetition and the sites
called are exactly the interior coordinates `1 ≤ x ≤ NX`, `1 ≤ y ≤ NY`.  The
calls are made on the lattice and the generator: with `pos k` the number of
deviates drawn when the call number `k` is made, the call number
`(x-1)*NY + (y-1)` is `update_spin` on the value the cell `(x, y)` had when
the sweep started, at the deviate `pos k`; what it returns is the value of
the cell when the sweep ends and the deviate count `pos (k+1)` of the next
call; the sweep starts at `pos 0` and ends at `pos (NX*NY)`, having drawn at
least `NX*NY` and at most `2*NX*NY` deviates; and every cell that is not an
interior cell, so every border cell, is left as it was. -/
theorem sweep_visits_row_major {K : Type} [LinearOrderedField K] (NX NY : ℕ)
    (exp : K → K) (draws : ℕ → K) (beta h : K) (st : Ising2d.State K) :
    ∃ st', Ising2d.sweep NX NY exp draws beta h st = some st' ∧
      ∃ added : List (ℕ × ℕ × K), st'.calls = st.calls ++ added ∧
        added.length = NX * NY ∧
        added.map (fun c => (c.1, c.2.1)) = Ising2d.rowMajor NX NY ∧
        (added.map (fun c => (c.1, c.2.1))).Nodup ∧
        (∀ x y : ℕ, (x, y) ∈ added.map (fun c => (c.1, c.2.1)) ↔
          (1 ≤ x ∧ x ≤ NX) ∧ (1 ≤ y ∧ y ≤ NY)) ∧
        (∃ pos : ℕ → ℕ, pos 0 = st.drawn ∧ pos (NX * NY) = st'.drawn ∧
          ∀ x y : ℕ, 1 ≤ x → x ≤ NX → 1 ≤ y → y ≤ NY →
            ∃ env : K, added[(x - 1) * NY + (y - 1)]? = some (x, y, env) ∧
              Ising2d.update_spin exp draws (st.spin x y) env (pos ((x - 1) * NY + (y - 1)))
                = (st'.spin x y, pos ((x - 1) * NY + (y - 1) + 1))) ∧
        (∀ i j : ℤ, ¬ (1 ≤ i ∧ i ≤ (NX : ℤ) ∧ 1 ≤ j ∧ j ≤ (NY : ℤ)) →
          st'.spin i j = st.spin i j) ∧
        st.drawn + NX * NY ≤ st'.drawn ∧ st'.drawn ≤ st.drawn + 2 * (NX * NY) := by
  obtain ⟨st', hst', added, pos, hc, hlen, hmap, hp0, hpk, hlog, hframe, hd1, hd2⟩ :=
    Ising2d.sweep_trace NX NY exp draws beta h st
  refine ⟨st', hst', added, hc, hlen, hmap, hmap ▸ Ising2d.nodup_rowMajor NX NY, ?_,
    ⟨pos, hp0, hpk, ?_⟩, hframe, hd1, hd2⟩
  · intro x y
    rw [hmap]
    exact Ising2d.mem_rowMajor NX NY (x, y)
  · intro x y hx1 hx2 hy1 hy2
    exact ⟨_, hlog x y hx1 hx2 hy1 hy2⟩

/-- C7, instance: on the `1 × 1` lattice over `ℚ` holding `-1`, with all
deviates 0, `beta = 1`, `h = 0`: the sweep makes one call, it is
`update_spin` on the cell `(1, 1)` at the first deviate, and the cell ends
with what that call returns. -/
theorem sweep_visits_row_major_witness :
    ∃ (st' : Ising2d.State ℚ) (added : List (ℕ × ℕ × ℚ)) (pos : ℕ → ℕ) (env : ℚ),
      Ising2d.sweep 1 1 (fun _ => (0 : ℚ)) (fun _ => 0) 1 0
        ⟨fun i j => if i = 1 ∧ j = 1 then -1 else 0, 0, []⟩ = some st' ∧
      added.length = 1 * 1 ∧ pos 0 = 0 ∧
      added[(1 - 1) * 1 + (1 - 1)]? = some (1, 1, env) ∧
      Ising2d.update_spin (fun _ => (0 : ℚ)) (fun _ => 0)
          ((fun i j : ℤ => if i = 1 ∧ j = 1 then (-1 : ℤ) else 0) (1 : ℕ) (1 : ℕ)) env
          (pos ((1 - 1) * 1 + (1 - 1)))
        = (st'.spin (1 : ℕ) (1 : ℕ), pos ((1 - 1) * 1 + (1 - 1) + 1)) := by
  obtain ⟨st', h1, added, _, h2, _, _, _, ⟨pos, h3, _, h4⟩, _⟩ :=
    sweep_visits_row_major 1 1 (fun _ => (0 : ℚ)) (fun _ => 0) 1 0
      ⟨fun i j => if i = 1 ∧ j = 1 then -1 else 0, 0, []⟩
  obtain ⟨env, h5, h6⟩ := h4 1 1 (by decide) (by decide) (by decide) (by decide)
  exact ⟨st', added, pos, env, h1, h2, h3, h5, h6⟩

/-- C8 (sequential in-place update): from every state `S` one call of
`sweep(beta, h)` runs to a state `S'`, and the environment used by the call
of `update_spin` at the interior site `(x, y)`, which is the call number
`k = (x-1)*NY + (y-1)` of the sweep, is
`beta * (S'[x-1][y] + S'[x][y-1] + S[x+1][y] + S[x][y+1]) + h`: the two
neighbours that come earlier in the sweep are read with the values they have
when the sweep ends, the two that come later with the values they had when it
started.  That environment is the one the call is made with: `update_spin`
applied to the value `S[x][y]`, this environment and the deviate count
`pos k` of that moment returns the value `S'[x][y]` that the cell holds when
the sweep ends, and the deviate count `pos (k+1)` of the next call. -/
theorem sequential_in_place_update {K : Type} [LinearOrderedField K] (NX NY : ℕ)
    (exp : K → K) (draws : ℕ → K) (beta h : K) (S : Ising2d.State K) :
    ∃ S', Ising2d.sweep NX NY exp draws beta h S = some S' ∧
      ∃ (added : List (ℕ × ℕ × K)) (pos : ℕ → ℕ), S'.calls = S.calls ++ added ∧
        pos 0 = S.drawn ∧ pos (NX * NY) = S'.drawn ∧
        ∀ x y : ℕ, 1 ≤ x → x ≤ NX → 1 ≤ y → y ≤ NY →
          added[(x - 1) * NY + (y - 1)]? = some (x, y,
            beta * ((S'.spin ((x : ℤ) - 1) y + S'.spin x ((y : ℤ) - 1)
              + S.spin ((x : ℤ) + 1) y + S.spin x ((y : ℤ) + 1) : ℤ) : K) + h) ∧
          Ising2d.update_spin exp draws (S.spin x y)
              (beta * ((S'.spin ((x : ℤ) - 1) y + S'.spin x ((y : ℤ) - 1)
                + S.spin ((x : ℤ) + 1) y + S.spin x ((y : ℤ) + 1) : ℤ) : K) + h)
              (pos ((x - 1) * NY + (y - 1)))
            = (S'.spin x y, pos ((x - 1) * NY + (y - 1) + 1)) := by
  obtain ⟨S', hS', added, pos, hc, _, _, hp0, hpk, hlog, _⟩ :=
    Ising2d.sweep_trace NX NY exp draws beta h S
  exact ⟨S', hS', added, pos, hc, hp0, hpk, hlog⟩

/-- C8, instance: on the `1 × 2` lattice over `ℚ` with zero border and `-1`
in both interior cells, `beta = 1`, `h = 0`: the second call of the sweep is
at `(1, 2)`, and it is `update_spin` on the old value of that cell with the
environment formed from the new value of the cell `(1, 1)`. -/
theorem sequential_in_place_update_witness :
    ∃ (S' : Ising2d.State ℚ) (added : List (ℕ × ℕ × ℚ)) (pos : ℕ → ℕ),
      Ising2d.sweep 1 2 (fun _ => (0 : ℚ)) (fun _ => 0) 1 0
        ⟨fun i j => if i = 1 ∧ (j = 1 ∨ j = 2) then -1 else 0, 0, []⟩ = some S' ∧
      added[(1 - 1) * 2 + (2 - 1)]? = some (1, 2,
        1 * ((S'.spin (((1 : ℕ) : ℤ) - 1) (2 : ℕ) + S'.spin (1 : ℕ) (((2 : ℕ) : ℤ) - 1)
          + (fun i j : ℤ => if i = 1 ∧ (j = 1 ∨ j = 2) then (-1 : ℤ) else 0)
              (((1 : ℕ) : ℤ) + 1) (2 : ℕ)
          + (fun i j : ℤ => if i = 1 ∧ (j = 1 ∨ j = 2) then (-1 : ℤ) else 0)
              (1 : ℕ) (((2 : ℕ) : ℤ) + 1) : ℤ) : ℚ) + 0) ∧
      Ising2d.update_spin (fun _ => (0 : ℚ)) (fun _ => 0)
          ((fun i j : ℤ => if i = 1 ∧ (j = 1 ∨ j = 2) then (-1 : ℤ) else 0) (1 : ℕ) (2 : ℕ))
          (1 * ((S'.spin (((1 : ℕ) : ℤ) - 1) (2 : ℕ) + S'.spin (1 : ℕ) (((2 : ℕ) : ℤ) - 1)
            + (fun i j : ℤ => if i = 1 ∧ (j = 1 ∨ j = 2) then (-1 : ℤ) else 0)
                (((1 : ℕ) : ℤ) + 1) (2 : ℕ)
            + (fun i j : ℤ => if i = 1 ∧ (j = 1 ∨ j = 2) then (-1 : ℤ) else 0)
                (1 : ℕ) (((2 : ℕ) : ℤ) + 1) : ℤ) : ℚ) + 0)
          (pos ((1 - 1) * 2 + (2 - 1)))
        = (S'.spin (1 : ℕ) (2 : ℕ), pos ((1 - 1) * 2 + (2 - 1) + 1)) := by
  obtain ⟨S', h1, added, pos, _, _, _, h2⟩ := sequential_in_place_update 1 2
    (fun _ => (0 : ℚ)) (fun _ => 0) 1 0
    ⟨fun i j => if i = 1 ∧ (j = 1 ∨ j = 2) then -1 else 0, 0, []⟩
  obtain ⟨h3, h4⟩ := h2 1 2 (by decide) (by decide) (by decide) (by decide)
  exact ⟨S', added, pos, h1, h3, h4⟩

/-- C9 (neighbour reads are in bounds): at every interior site `(nx, ny)`
visited by `sweep` the four cells read, `spin[nx][ny-1]`, `spin[nx][ny+1]`,
`spin[nx-1][ny]`, `spin[nx+1][ny]`, have both indices inside the extent
`0..NX+1` by `0..NY+1`, so each checked read returns the cell and the body of
the loop, and hence the whole call of `sweep`, never takes the out-of-range
branch; and on a state whose border is 0 each of the four reads that falls on
the border (at `ny = 1`, `ny = NY`, `nx = 1`, `nx = NX`) returns 0. -/
theorem neighbour_reads_in_bounds {K : Type} [LinearOrderedField K] (NX NY : ℕ)
    (exp : K → K) (draws : ℕ → K) (beta h : K) (st : Ising2d.State K) (nx ny : ℕ)
    (hx1 : 1 ≤ nx) (hx2 : nx ≤ NX) (hy1 : 1 ≤ ny) (hy2 : ny ≤ NY) :
    (Ising2d.inExtent NX NY nx ((ny : ℤ) - 1) ∧ Ising2d.inExtent NX NY nx ((ny : ℤ) + 1) ∧
      Ising2d.inExtent NX NY ((nx : ℤ) - 1) ny ∧ Ising2d.inExtent NX NY ((nx : ℤ) + 1) ny) ∧
    (Ising2d.readSpin NX NY st.spin nx ((ny : ℤ) - 1) = some (st.spin nx ((ny : ℤ) - 1)) ∧
      Ising2d.readSpin NX NY st.spin nx ((ny : ℤ) + 1) = some (st.spin nx ((ny : ℤ) + 1)) ∧
      Ising2d.readSpin NX NY st.spin ((nx : ℤ) - 1) ny = some (st.spin ((nx : ℤ) - 1) ny) ∧
      Ising2d.readSpin NX NY st.spin ((nx : ℤ) + 1) ny = some (st.spin ((nx : ℤ) + 1) ny)) ∧
    (∃ st', Ising2d.sweepSite NX NY exp draws beta h nx ny st = some st') ∧
    (∃ st', Ising2d.sweep NX NY exp draws beta h st = some st') ∧
    (Ising2d.borderZero NX NY st.spin →
      (ny = 1 → Ising2d.readSpin NX NY st.spin nx ((ny : ℤ) - 1) = some 0) ∧
      (ny = NY → Ising2d.readSpin NX NY st.spin nx ((ny : ℤ) + 1) = some 0) ∧
      (nx = 1 → Ising2d.readSpin NX NY st.spin ((nx : ℤ) - 1) ny = some 0) ∧
      (nx = NX → Ising2d.readSpin NX NY st.spin ((nx : ℤ) + 1) ny = some 0)) := by
  have e1 : Ising2d.inExtent NX NY nx ((ny : ℤ) - 1) := by unfold Ising2d.inExtent; omega
  have e2 : Ising2d.inExtent NX NY nx ((ny : ℤ) + 1) := by unfold Ising2d.inExtent; omega
  have e3 : Ising2d.inExtent NX NY ((nx : ℤ) - 1) ny := by unfold Ising2d.inExtent; omega
  have e4 : Ising2d.inExtent NX NY ((nx : ℤ) + 1) ny := by unfold Ising2d.inExtent; omega
  refine ⟨⟨e1, e2, e3, e4⟩,
    ⟨Ising2d.readSpin_of_inExtent _ e1, Ising2d.readSpin_of_inExtent _ e2,
      Ising2d.readSpin_of_inExtent _ e3, Ising2d.readSpin_of_inExtent _ e4⟩,
    ⟨_, Ising2d.sweepSite_eq NX NY exp draws beta h nx ny st hx1 hx2 hy1 hy2⟩, ?_, ?_⟩
  · obtain ⟨st', hst', _⟩ := Ising2d.sweep_inv NX NY exp draws beta h (fun _ _ _ => True) st
      trivial (fun _ _ _ _ _ _ _ _ => trivial) (fun _ _ _ _ _ => trivial)
    exact ⟨st', hst'⟩
  · intro hb
    refine ⟨?_, ?_, ?_, ?_⟩
    · intro hny
      rw [Ising2d.readSpin_of_inExtent _ e1]
      have := hb nx (by omega) 0 (by omega) (by omega)
      have e : ((ny : ℤ) - 1) = ((0 : ℕ) : ℤ) := by omega
      rw [e, this]
    · intro hny
      rw [Ising2d.readSpin_of_inExtent _ e2]
      have := hb nx (by omega) (NY + 1) (by omega) (by omega)
      have e : ((ny : ℤ) + 1) = ((NY + 1 : ℕ) : ℤ) := by omega
      rw [e, this]
    · intro hnx
      rw [Ising2d.readSpin_of_inExtent _ e3]
      have := hb 0 (by omega) ny (by omega) (by omega)
      have e : ((nx : ℤ) - 1) = ((0 : ℕ) : ℤ) := by omega
      rw [e, this]
    · intro hnx
      rw [Ising2d.readSpin_of_inExtent _ e4]
      have := hb (NX + 1) (by omega) ny (by omega) (by omega)
      have e : ((nx : ℤ) + 1) = ((NX + 1 : ℕ) : ℤ) := by omega
      rw [e, this]

/-- C9, instance: on the `1 × 1` lattice with all cells 0, over `ℚ`, the
site `(1, 1)` has its left neighbour `spin[1][0]` in the extent and the read
returns that cell. -/
theorem neighbour_reads_in_bounds_witness :
    Ising2d.inExtent 1 1 ((1 : ℕ) : ℤ) (((1 : ℕ) : ℤ) - 1) ∧
    Ising2d.readSpin 1 1 (fun _ _ => 0) ((1 : ℕ) : ℤ) (((1 : ℕ) : ℤ) - 1) = some 0 :=
  ⟨(neighbour_reads_in_bounds 1 1 (fun _ => (0 : ℚ)) (fun _ => 0) 0 0
      ⟨fun _ _ => 0, 0, []⟩ 1 1 (by decide) (by decide) (by decide) (by decide)).1.1,
    (neighbour_reads_in_bounds 1 1 (fun _ => (0 : ℚ)) (fun _ => 0) 0 0
      ⟨fun _ _ => 0, 0, []⟩ 1 1 (by decide) (by decide) (by decide) (by decide)).2.1.1⟩

/-! ## The measurement loop -/

namespace Ising2d

open Ising

theorem sweep_interiorPM {K : Type} [LinearOrderedField K] (NX NY : ℕ) (exp : K → K)
    (draws : ℕ → K) (beta h : K) (st : State K) (hst : interiorPM NX NY st.spin) :
    ∃ st', sweep NX NY exp draws beta h st = some st' ∧ interiorPM NX NY st'.spin :=
  sweep_inv NX NY exp draws beta h (fun _ _ t => interiorPM NX NY t.spin) st hst
    (fun x y t hx1 hx2 hy1 hy2 hP =>
      siteResult_interiorPM NX NY exp draws beta h x y t hx1 hx2 hy1 hy2 hP)
    (fun _ _ _ _ hP => hP)

theorem sweeps_succ {K : Type} [LinearOrderedField K] (NX NY : ℕ) (exp : K → K)
    (draws : ℕ → K) (beta h : K) (k : ℕ) (st : State K) :
    sweeps NX NY exp draws beta h (k + 1) st
      = (sweeps NX NY exp draws beta h k st).bind (sweep NX NY exp draws beta h) := by
  induction k generalizing st with
  | zero =>
    simp only [sweeps, Option.some_bind]
    cases sweep NX NY exp draws beta h st <;> rfl
  | succ k ih =>
    have e1 : sweeps NX NY exp draws beta h (k + 1 + 1) st
        = (sweep NX NY exp draws beta h st).bind (sweeps NX NY exp draws beta h (k + 1)) := rfl
    have e2 : sweeps NX NY exp draws beta h (k + 1) st
        = (sweep NX NY exp draws beta h st).bind (sweeps NX NY exp draws beta h k) := rfl
    rw [e1, e2]
    cases sweep NX NY exp draws beta h st with
    | none => rfl
    | some t =>
      simp only [Option.some_bind]
      exact ih t

theorem displayRow_some (NX NY : ℕ) (spin : ℤ → ℤ → ℤ) (nx : ℕ) (hx1 : 1 ≤ nx)
    (hx2 : nx ≤ NX) (out : List Char) : ∃ o, displayRow NX NY spin nx out = some o := by
  obtain ⟨o, ho, _⟩ := forRange_inv (displayCell NX NY spin nx) (fun _ _ => True)
    1 (NY + 1) (by omega) out trivial
    (by
      intro y t hy1 hy2 _
      have hin : inExtent NX NY (nx : ℤ) (y : ℤ) := by unfold inExtent; omega
      simp only [displayCell, readSpin_of_inExtent _ hin, Option.some_bind]
      exact ⟨_, rfl, trivial⟩)
  simp only [displayRow, ho, Option.some_bind]
  exact ⟨_, rfl⟩

/-- On a lattice of `+1` and `-1` cells `DisplayLattice` writes a frame: all
its reads are inside the array. -/
theorem DisplayLattice_some {K : Type} [LinearOrderedField K] (NX NY : ℕ)
    (hsz : NX * NY < 2 ^ 31) (spin : ℤ → ℤ → ℤ) (hpm : interiorPM NX NY spin)
    (sweep_number : ℤ) :
    ∃ f : Frame K, DisplayLattice NX NY spin sweep_number = some f := by
  obtain ⟨text, htext, _⟩ := forRange_inv (displayRow NX NY spin) (fun _ _ => True)
    1 (NX + 1) (by omega) [] trivial
    (by
      intro x t hx1 hx2 _
      obtain ⟨o, ho⟩ := displayRow_some NX NY spin x hx1 (by omega) t
      exact ⟨o, ho, trivial⟩)
  unfold DisplayLattice Magnetization
  rw [htext, magSum_eq NX NY hsz spin hpm]
  by_cases hn : 0 ≤ sweep_number
  · simp only [Option.some_bind, if_pos hn]
    exact ⟨_, rfl⟩
  · simp only [Option.some_bind, if_neg hn]
    exact ⟨_, rfl⟩

/-- The accumulation loop of `main` adds the interior sum to `nmag` and the
number of sites to `ntotal`, without overflow of the `long` accumulators. -/
theorem accumulate_eq {K : Type} (NX NY : ℕ) (m : Meas K)
    (hpm : interiorPM NX NY m.st.spin) (h0 : 0 ≤ m.ntotal) (hlo : -m.ntotal ≤ m.nmag)
    (hhi : m.nmag ≤ m.ntotal) (hsz : m.ntotal + ((NX * NY : ℕ) : ℤ) < 2 ^ 63) :
    forRange (fun nx => forRange (accumulateSite NX NY nx) 1 (NY + 1)) 1 (NX + 1) m
      = some { m with nmag := m.nmag + interiorSum NX NY m.st.spin,
                      ntotal := m.ntotal + ((NX * NY : ℕ) : ℤ) } := by
  obtain ⟨t, ht, h1, h2, h3, h4, _⟩ := nested_inv (accumulateSite NX NY)
    (fun cx cy (t : Meas K) => t.st = m.st ∧ t.shown = m.shown ∧
      t.nmag = m.nmag + partialSum NY m.st.spin cx cy ∧
      t.ntotal = m.ntotal + (sitesBefore NY cx cy : ℤ) ∧
      (-(sitesBefore NY cx cy : ℤ) ≤ partialSum NY m.st.spin cx cy ∧
        partialSum NY m.st.spin cx cy ≤ (sitesBefore NY cx cy : ℤ)))
    1 (NX + 1) 1 (NY + 1) (by omega) (by omega) m
    (by simp [partialSum_start, sitesBefore_start])
    (by
      intro x y t hx1 hx2 hy1 hy2 hP
      obtain ⟨hP1, hP2, hP3, hP4, hP5, hP6⟩ := hP
      have hin : inExtent NX NY (x : ℤ) (y : ℤ) := by unfold inExtent; omega
      have hc := interiorPM_cell_bounds NX NY m.st.spin hpm x y hx1 (by omega) hy1 (by omega)
      have hlt := sitesBefore_lt NX NY x y hx1 (by omega) hy1 (by omega)
      have hlt' : (sitesBefore NY x y : ℤ) < ((NX * NY : ℕ) : ℤ) := by exact_mod_cast hlt
      have hw1 : wrapLong (t.nmag + m.st.spin x y) = t.nmag + m.st.spin x y := by
        apply wrapLong_eq <;> omega
      have hw2 : wrapLong (t.ntotal + 1) = t.ntotal + 1 := by
        apply wrapLong_eq <;> omega
      refine ⟨{ t with nmag := t.nmag + m.st.spin x y, ntotal := t.ntotal + 1 },
        by simp only [accumulateSite, hP1, readSpin_of_inExtent _ hin,
          Option.some_bind, hw1, hw2], hP1, hP2, ?_, ?_, ?_, ?_⟩
      · show t.nmag + m.st.spin x y = _
        rw [partialSum_step NY m.st.spin x y hy1, hP3]; ring
      · show t.ntotal + 1 = _
        rw [sitesBefore_step NY x y hy1, hP4]; push_cast; ring
      · rw [partialSum_step NY m.st.spin x y hy1, sitesBefore_step NY x y hy1]
        push_cast; omega
      · rw [partialSum_step NY m.st.spin x y hy1, sitesBefore_step NY x y hy1]
        push_cast; omega)
    (by
      intro x t hx1 _ hP
      rw [partialSum_row NY m.st.spin x hx1, sitesBefore_row NY x hx1]
      exact hP)
  rw [partialSum_end] at h3
  rw [sitesBefore_end] at h4
  rw [ht]
  congr 1
  cases t
  cases m
  simp only at h1 h2 h3 h4
  simp only [h1, h2, h3, h4]

end Ising2d

namespace Ising2d

open Ising

/-- On a lattice of `+1` and `-1` cells `Magnetization()` returns the
interior sum over the number of sites. -/
theorem Magnetization_eq {K : Type} [LinearOrderedField K] (NX NY : ℕ)
    (hsz : NX * NY < 2 ^ 31) (spin : ℤ → ℤ → ℤ) (hpm : interiorPM NX NY spin) :
    (Magnetization NX NY spin : Option K)
      = some (((interiorSum NX NY spin : ℤ) : K) / ((NX * NY : ℕ) : K)) := by
  have hw : wrapInt ((NX : ℤ) * (NY : ℤ)) = ((NX * NY : ℕ) : ℤ) := by
    have h1 : (0 : ℤ) ≤ ((NX * NY : ℕ) : ℤ) := Int.natCast_nonneg _
    have h2 : ((NX * NY : ℕ) : ℤ) < 2 ^ 31 := by exact_mod_cast hsz
    rw [← Nat.cast_mul]
    apply wrapInt_eq <;> omega
  unfold Magnetization
  rw [magSum_eq NX NY hsz spin hpm, Option.some_bind, hw]
  simp

/-- One iteration of the measurement loop, from a state whose accumulators
are in range. -/
theorem measureStep_eq {K : Type} [LinearOrderedField K] (NX NY : ℕ)
    (hsz : NX * NY < 2 ^ 31) (exp : K → K) (draws : ℕ → K) (beta h : K) (n : ℕ)
    (m : Meas K) (st' : State K) (hpm : interiorPM NX NY m.st.spin)
    (hsw : sweep NX NY exp draws beta h m.st = some st')
    (hpm' : interiorPM NX NY st'.spin)
    (h0 : 0 ≤ m.ntotal) (hlo : -m.ntotal ≤ m.nmag) (hhi : m.nmag ≤ m.ntotal)
    (hov : m.ntotal + ((NX * NY : ℕ) : ℤ) < 2 ^ 63) :
    ∃ m', measureStep NX NY exp draws beta h n m = some m' ∧ m'.st = st' ∧
      m'.nmag = m.nmag + interiorSum NX NY st'.spin ∧
      m'.ntotal = m.ntotal + ((NX * NY : ℕ) : ℤ) := by
  obtain ⟨f, hf⟩ := DisplayLattice_some (K := K) NX NY hsz m.st.spin hpm (n : ℤ)
  have hv : VisualDisplay ≠ 0 := by decide
  have hacc := accumulate_eq NX NY
    ({ m with shown := m.shown ++ [f], st := st' } : Meas K) hpm' h0 hlo hhi hov
  refine ⟨Meas.mk st' (m.nmag + interiorSum NX NY st'.spin)
    (m.ntotal + ((NX * NY : ℕ) : ℤ)) (m.shown ++ [f]), ?_, rfl, rfl, rfl⟩
  simp only [measureStep, if_pos hv, hf, Option.some_bind, hsw]
  exact hacc

end Ising2d

/-- C10 (run-average magnetization): on a lattice of at least one and fewer
than `2^31` sites whose interior cells are all `+1` or `-1` on entry to the
measurement loop, and for every `int` sweep count `nsweep ≥ 1`, the loop runs
to its end; then `ntotal = NX*NY*nsweep`, `nmag` is the sum, over the
`nsweep` lattice states obtained right after each measurement sweep, of the
sum of the interior spins (no `long` accumulator overflows), and the reported
value `nmag/ntotal` is the arithmetic mean of the `Magnetization()` values of
those states and lies in `[-1, 1]`. -/
theorem run_average_magnetization {K : Type} [LinearOrderedField K] (NX NY : ℕ)
    (hNX : 1 ≤ NX) (hNY : 1 ≤ NY) (hsz : NX * NY < 2 ^ 31)
    (exp : K → K) (draws : ℕ → K) (beta h : K) (st : Ising2d.State K)
    (hpm : Ising2d.interiorPM NX NY st.spin)
    (nsweep : ℕ) (h1 : 1 ≤ nsweep) (h2 : nsweep < 2 ^ 31) :
    ∃ m, Ising2d.measureLoop NX NY exp draws beta h nsweep st = some m ∧
      m.ntotal = ((NX * NY * nsweep : ℕ) : ℤ) ∧
      ∃ (sts : ℕ → Ising2d.State K) (mags : ℕ → K),
        (∀ k, k ≤ nsweep → Ising2d.sweeps NX NY exp draws beta h k st = some (sts k)) ∧
        m.st = sts nsweep ∧
        m.nmag = ∑ k in Finset.range nsweep, Ising2d.interiorSum NX NY (sts (k + 1)).spin ∧
        (∀ k, k < nsweep → Ising2d.Magnetization NX NY (sts (k + 1)).spin = some (mags k)) ∧
        Ising2d.averageMagnetization m = (∑ k in Finset.range nsweep, mags k) / (nsweep : K) ∧
        -1 ≤ Ising2d.averageMagnetization m ∧ Ising2d.averageMagnetization m ≤ 1 := by
  -- the states after `k` sweeps
  have hall : ∀ k, ∃ t, Ising2d.sweeps NX NY exp draws beta h k st = some t ∧
      Ising2d.interiorPM NX NY t.spin := fun k =>
    Ising2d.sweeps_inv NX NY exp draws beta h (fun t => Ising2d.interiorPM NX NY t.spin)
      (fun u hu => Ising2d.sweep_interiorPM NX NY exp draws beta h u hu) k st hpm
  have hsts : ∀ k, Ising2d.sweeps NX NY exp draws beta h k st
      = some ((Ising2d.sweeps NX NY exp draws beta h k st).getD st) ∧
      Ising2d.interiorPM NX NY ((Ising2d.sweeps NX NY exp draws beta h k st).getD st).spin := by
    intro k
    obtain ⟨t, ht, hpt⟩ := hall k
    rw [ht]
    exact ⟨rfl, hpt⟩
  generalize hdef : (fun k => (Ising2d.sweeps NX NY exp draws beta h k st).getD st) = sts
  have hsts1 : ∀ k, Ising2d.sweeps NX NY exp draws beta h k st = some (sts k) := by
    intro k; rw [← hdef]; exact (hsts k).1
  have hsts2 : ∀ k, Ising2d.interiorPM NX NY (sts k).spin := by
    intro k; rw [← hdef]; exact (hsts k).2
  have hnext : ∀ k, Ising2d.sweep NX NY exp draws beta h (sts k) = some (sts (k + 1)) := by
    intro k
    have e := Ising2d.sweeps_succ NX NY exp draws beta h k st
    rw [hsts1 k, hsts1 (k + 1), Option.some_bind] at e
    exact e.symm
  have hbig : NX * NY * nsweep < 2 ^ 62 := by
    have : NX * NY * nsweep < 2 ^ 31 * 2 ^ 31 := Nat.mul_lt_mul'' hsz h2
    omega
  -- the loop
  obtain ⟨m, hm, hst, hnt, hnm, hlo, hhi⟩ := Ising.forRange_inv
    (Ising2d.measureStep NX NY exp draws beta h)
    (fun n (m : Ising2d.Meas K) => m.st = sts n ∧ m.ntotal = ((NX * NY * n : ℕ) : ℤ) ∧
      m.nmag = ∑ k in Finset.range n, Ising2d.interiorSum NX NY (sts (k + 1)).spin ∧
      -m.ntotal ≤ m.nmag ∧ m.nmag ≤ m.ntotal)
    0 nsweep (Nat.zero_le _) ⟨st, 0, 0, []⟩
    ⟨by
        have e := hsts1 0
        simp only [Ising2d.sweeps, Option.some.injEq] at e
        exact e, by simp, by simp, by simp, by simp⟩
    (by
      intro n m _ hn hI
      obtain ⟨hst, hnt, hnm, hlo, hhi⟩ := hI
      have hle : NX * NY * (n + 1) ≤ NX * NY * nsweep := Nat.mul_le_mul_left _ hn
      have hmul : NX * NY * (n + 1) = NX * NY * n + NX * NY := Nat.mul_succ _ _
      have hfacts := Ising2d.interiorSum_facts NX NY (sts (n + 1)).spin (hsts2 (n + 1))
      obtain ⟨m', hm', hst', hnm', hnt'⟩ := Ising2d.measureStep_eq NX NY hsz exp draws beta h n m
        (sts (n + 1)) (by rw [hst]; exact hsts2 n) (by rw [hst]; exact hnext n)
        (hsts2 (n + 1)) (by rw [hnt]; exact Int.natCast_nonneg _) hlo hhi
        (by rw [hnt]; omega)
      refine ⟨m', hm', hst', ?_, ?_, ?_, ?_⟩
      · rw [hnt', hnt, hmul]; push_cast; ring
      · rw [hnm', hnm, Finset.sum_range_succ]
      · rw [hnm', hnt']; omega
      · rw [hnm', hnt']; omega)
  have hNpos : 0 < NX * NY := Nat.mul_pos (by omega) (by omega)
  have hN : (0 : K) < ((NX * NY : ℕ) : K) := by exact_mod_cast hNpos
  have hS : (0 : K) < (nsweep : K) := by exact_mod_cast h1
  have hT : (0 : K) < ((m.ntotal : ℤ) : K) := by
    rw [hnt]
    have : 0 < NX * NY * nsweep := Nat.mul_pos hNpos (by omega)
    exact_mod_cast this
  refine ⟨m, hm, hnt, sts,
    fun k => ((Ising2d.interiorSum NX NY (sts (k + 1)).spin : ℤ) : K) / ((NX * NY : ℕ) : K),
    fun k _ => hsts1 k, hst, hnm,
    fun k _ => Ising2d.Magnetization_eq NX NY hsz (sts (k + 1)).spin (hsts2 (k + 1)), ?_, ?_, ?_⟩
  · unfold Ising2d.averageMagnetization
    rw [hnm, hnt, ← Finset.sum_div, div_div]
    push_cast
    rfl
  · unfold Ising2d.averageMagnetization
    rw [le_div_iff₀ hT]
    have : ((-m.ntotal : ℤ) : K) ≤ ((m.nmag : ℤ) : K) := Int.cast_le.mpr hlo
    push_cast at this
    linarith
  · unfold Ising2d.averageMagnetization
    rw [div_le_iff₀ hT]
    have : ((m.nmag : ℤ) : K) ≤ ((m.ntotal : ℤ) : K) := Int.cast_le.mpr hhi
    linarith

/-- C10, instance: the `64 × 64` lattice of the program with every cell
holding `+1`, over `ℚ`, with all deviates 0, `beta = h = 0` and 1000
measurement sweeps: the loop ends with `ntotal = 64 * 64 * 1000` and a
reported average in `[-1, 1]`. -/
theorem run_average_magnetization_witness :
    ∃ m, Ising2d.measureLoop 64 64 (fun _ => (0 : ℚ)) (fun _ => 0) 0 0 1000
        ⟨fun _ _ => 1, 0, []⟩ = some m ∧
      m.ntotal = ((64 * 64 * 1000 : ℕ) : ℤ) ∧
      -1 ≤ Ising2d.averageMagnetization m ∧ Ising2d.averageMagnetization m ≤ 1 := by
  obtain ⟨m, h1, h2, _, _, _, _, _, _, _, h3, h4⟩ :=
    run_average_magnetization 64 64 (by decide) (by decide) (by norm_num)
      (fun _ => (0 : ℚ)) (fun _ => 0) 0 0 ⟨fun _ _ => 1, 0, []⟩
      (fun _ _ _ _ _ _ => Or.inl rfl) 1000 (by decide) (by norm_num)
  exact ⟨m, h1, h2, h3, h4⟩

/-- C12 (random-draw consumption of one update attempt): with
`DeltaBetaE = -(candidate - s) * env`, `update_spin` of `ising2d.cpp` and of
`twospin.cpp` consumes exactly one deviate when `DeltaBetaE ≤ 0` and exactly
two when `DeltaBetaE > 0`; `update` of `onespin.cpp`, whose candidate is
`-s`, consumes none when `DeltaBetaE ≤ 0` and exactly one when
`DeltaBetaE > 0`. -/
theorem draw_consumption {K : Type} [LinearOrderedField K] (exp : K → K)
    (draws : ℕ → K) (s : ℤ) (env : K) (drawn : ℕ) :
    (∀ (cand : ℤ) (DeltaBetaE : K), cand = (if draws drawn < 1 / 2 then 1 else -1) →
      DeltaBetaE = ((-(cand - s) : ℤ) : K) * env →
      (DeltaBetaE ≤ 0 →
        (Ising2d.update_spin exp draws s env drawn).2 = drawn + 1 ∧
        (TwoSpin.update_spin exp draws s env drawn).2 = drawn + 1) ∧
      (0 < DeltaBetaE →
        (Ising2d.update_spin exp draws s env drawn).2 = drawn + 2 ∧
        (TwoSpin.update_spin exp draws s env drawn).2 = drawn + 2)) ∧
    (∀ DeltaBetaE : K, DeltaBetaE = ((-(-s - s) : ℤ) : K) * env →
      (DeltaBetaE ≤ 0 → (OneSpin.update exp draws s env drawn).2 = drawn) ∧
      (0 < DeltaBetaE → (OneSpin.update exp draws s env drawn).2 = drawn + 1)) := by
  constructor
  · intro cand D hc hD
    subst hc
    constructor
    · intro hle
      constructor
      · unfold Ising2d.update_spin Ising.drand48
        simp only [← hD, if_pos hle]
      · unfold TwoSpin.update_spin Ising.drand48
        simp only [← hD, if_pos hle]
    · intro hpos
      have hnle : ¬ D ≤ 0 := not_le.mpr hpos
      constructor
      · unfold Ising2d.update_spin Ising.drand48
        simp only [← hD, if_neg hnle]
        by_cases hu : draws (drawn + 1) < exp (-D)
        · rw [if_pos hu]
        · rw [if_neg hu]
      · unfold TwoSpin.update_spin Ising.drand48
        simp only [← hD, if_neg hnle]
        by_cases hu : draws (drawn + 1) < exp (-D)
        · rw [if_pos hu]
        · rw [if_neg hu]
  · intro D hD
    constructor
    · intro hle
      unfold OneSpin.update
      simp only [← hD, if_pos hle]
    · intro hpos
      have hnle : ¬ D ≤ 0 := not_le.mpr hpos
      unfold OneSpin.update Ising.drand48
      simp only [← hD, if_neg hnle]
      by_cases hu : draws drawn < exp (-D)
      · rw [if_pos hu]
      · rw [if_neg hu]

/-- C12, instance: over `ℚ`, current spin `-1`, first deviate 0 (candidate
`+1`): with environment `1` (`DeltaBetaE = -2`) `update_spin` consumes one
deviate and `update` none; with environment `-1` (`DeltaBetaE = 2`)
`update_spin` consumes two and `update` one. -/
theorem draw_consumption_witness :
    ((Ising2d.update_spin (fun _ => (0 : ℚ)) (fun _ => 0) (-1) 1 0).2 = 0 + 1 ∧
      (OneSpin.update (fun _ => (0 : ℚ)) (fun _ => 0) (-1) 1 0).2 = 0) ∧
    ((Ising2d.update_spin (fun _ => (0 : ℚ)) (fun _ => 0) (-1) (-1) 0).2 = 0 + 2 ∧
      (OneSpin.update (fun _ => (0 : ℚ)) (fun _ => 0) (-1) (-1) 0).2 = 0 + 1) :=
  ⟨⟨(((draw_consumption (fun _ => (0 : ℚ)) (fun _ => 0) (-1) 1 0).1 1 (-2)
        (by norm_num) (by norm_num)).1 (by norm_num)).1,
      ((draw_consumption (fun _ => (0 : ℚ)) (fun _ => 0) (-1) 1 0).2 (-2)
        (by norm_num)).1 (by norm_num)⟩,
    ⟨(((draw_consumption (fun _ => (0 : ℚ)) (fun _ => 0) (-1) (-1) 0).1 1 2
        (by norm_num) (by norm_num)).2 (by norm_num)).1,
      ((draw_consumption (fun _ => (0 : ℚ)) (fun _ => 0) (-1) (-1) 0).2 2
        (by norm_num)).2 (by norm_num)⟩⟩

/-! ## The thermalization loop -/

namespace Ising

theorem loopFromE_inv {σ : Type} (body : ℕ → σ → Except Fault σ) (I : ℕ → σ → Prop) :
    ∀ (n lo : ℕ) (s : σ), I lo s →
      (∀ i t, lo ≤ i → i < lo + n → I i t → ∃ t', body i t = Except.ok t' ∧ I (i + 1) t') →
      ∃ s', loopFromE body lo n s = Except.ok s' ∧ I (lo + n) s' := by
  intro n
  induction n with
  | zero => intro lo s h0 _; exact ⟨s, rfl, by simpa using h0⟩
  | succ n ih =>
    intro lo s h0 hstep
    obtain ⟨t, ht, hI⟩ := hstep lo s (Nat.le_refl _) (by omega) h0
    obtain ⟨s', hs', hI'⟩ := ih (lo + 1) t hI (fun i u h1 h2 hu => hstep i u (by omega) (by omega) hu)
    refine ⟨s', ?_, ?_⟩
    · simp only [loopFromE, ht]
      exact hs'
    · have e : lo + (n + 1) = lo + 1 + n := by omega
      rw [e]; exact hI'

theorem loopFromE_fault {σ : Type} (body : ℕ → σ → Except Fault σ) (lo n : ℕ) (s : σ)
    (e : Fault) (hb : body lo s = Except.error e) :
    loopFromE body lo (n + 1) s = Except.error e := by
  simp only [loopFromE, hb]

end Ising

namespace Ising2d

open Ising

/-- A call of `sweep` never leaves the array: it returns a state from every
state. -/
theorem sweep_total {K : Type} [LinearOrderedField K] (NX NY : ℕ) (exp : K → K)
    (draws : ℕ → K) (beta h : K) (st : State K) :
    ∃ st', sweep NX NY exp draws beta h st = some st' := by
  obtain ⟨st', hst', _⟩ := sweep_inv NX NY exp draws beta h (fun _ _ _ => True) st
    trivial (fun _ _ _ _ _ _ _ _ => trivial) (fun _ _ _ _ _ => trivial)
  exact ⟨st', hst'⟩

/-- With a negative sweep number `DisplayLattice` writes a frame from every
array: it does not call `Magnetization`. -/
theorem DisplayLattice_neg {K : Type} [LinearOrderedField K] (NX NY : ℕ)
    (spin : ℤ → ℤ → ℤ) (sweep_number : ℤ) (hneg : sweep_number < 0) :
    ∃ f : Frame K, DisplayLattice NX NY spin sweep_number = some f := by
  obtain ⟨text, htext, _⟩ := forRange_inv (displayRow NX NY spin) (fun _ _ => True)
    1 (NX + 1) (by omega) [] trivial
    (by
      intro x t hx1 hx2 _
      obtain ⟨o, ho⟩ := displayRow_some NX NY spin x hx1 (by omega) t
      exact ⟨o, ho, trivial⟩)
  have hn : ¬ 0 ≤ sweep_number := by omega
  unfold DisplayLattice
  rw [htext]
  simp only [Option.some_bind, if_neg hn]
  exact ⟨_, rfl⟩

theorem thermStep_fault {K : Type} [LinearOrderedField K] (NX NY : ℕ) (exp : K → K)
    (draws : ℕ → K) (beta h : K) (ntherm : ℤ) (n : ℕ) (t : Therm K)
    (hdiv : ntherm.tdiv 10 = 0) :
    thermStep NX NY exp draws beta h ntherm n t = Except.error Fault.divByZero := by
  obtain ⟨st', hst'⟩ := sweep_total NX NY exp draws beta h t.st
  have hv : VisualDisplay ≠ 0 := by decide
  simp only [thermStep, hst', if_pos hv, if_pos hdiv]

theorem thermStep_ok {K : Type} [LinearOrderedField K] (NX NY : ℕ) (exp : K → K)
    (draws : ℕ → K) (beta h : K) (ntherm : ℤ) (n : ℕ) (t : Therm K)
    (hdiv : ntherm.tdiv 10 ≠ 0) :
    ∃ t', thermStep NX NY exp draws beta h ntherm n t = Except.ok t' ∧
      sweep NX NY exp draws beta h t.st = some t'.st ∧
      t'.printed = t.printed ++ (if (n : ℤ).tmod (ntherm.tdiv 10) = 0 then [n] else []) ∧
      t'.shown.length = t.shown.length
        + (if (n : ℤ).tmod (ntherm.tdiv 10) = 0 then 1 else 0) := by
  obtain ⟨st', hst'⟩ := sweep_total NX NY exp draws beta h t.st
  have hv : VisualDisplay ≠ 0 := by decide
  by_cases hmod : (n : ℤ).tmod (ntherm.tdiv 10) = 0
  · obtain ⟨f, hf⟩ := DisplayLattice_neg (K := K) NX NY st'.spin (-1) (by decide)
    refine ⟨⟨st', t.shown ++ [f], t.printed ++ [n]⟩, ?_, hst', ?_, ?_⟩
    · simp only [thermStep, hst', if_pos hv, if_neg hdiv, if_pos hmod, hf]
    · simp only [if_pos hmod]
    · simp only [if_pos hmod, List.length_append, List.length_singleton]
  · refine ⟨⟨st', t.shown, t.printed⟩, ?_, hst', ?_, ?_⟩
    · simp only [thermStep, hst', if_pos hv, if_neg hdiv, if_neg hmod]
    · simp only [if_neg hmod, List.append_nil]
    · simp only [if_neg hmod, Nat.add_zero]

/-- The thermalization loop with a non-zero cadence divisor: it runs to its
end, its state is that of `ntherm` successive sweeps, and it prints exactly
the indices that the cadence test selects. -/
theorem thermalize_ok {K : Type} [LinearOrderedField K] (NX NY : ℕ) (exp : K → K)
    (draws : ℕ → K) (beta h : K) (ntherm : ℤ) (st : State K)
    (hdiv : ntherm.tdiv 10 ≠ 0) :
    ∃ t, thermalize NX NY exp draws beta h ntherm st = Except.ok t ∧
      sweeps NX NY exp draws beta h ntherm.toNat st = some t.st ∧
      t.printed = (List.range ntherm.toNat).filter
        (fun i : ℕ => (i : ℤ).tmod (ntherm.tdiv 10) = 0) ∧
      t.shown.length = t.printed.length := by
  obtain ⟨t, ht, hI⟩ := loopFromE_inv (thermStep NX NY exp draws beta h ntherm)
    (fun n (t : Therm K) => sweeps NX NY exp draws beta h n st = some t.st ∧
      t.printed = (List.range n).filter (fun i : ℕ => (i : ℤ).tmod (ntherm.tdiv 10) = 0) ∧
      t.shown.length = t.printed.length)
    ntherm.toNat 0 ⟨st, [], []⟩ ⟨rfl, by simp, rfl⟩
    (by
      intro n t _ _ hI
      obtain ⟨hsw, hpr, hlen⟩ := hI
      obtain ⟨t', ht', hst', hpr', hlen'⟩ :=
        thermStep_ok NX NY exp draws beta h ntherm n t hdiv
      refine ⟨t', ht', ?_, ?_, ?_⟩
      · rw [sweeps_succ, hsw, Option.some_bind, hst']
      · rw [hpr', hpr, List.range_succ, List.filter_append]
        by_cases hmod : (n : ℤ).tmod (ntherm.tdiv 10) = 0
        · simp [hmod]
        · simp [hmod]
      · rw [hlen', hpr', List.length_append, hlen]
        by_cases hmod : (n : ℤ).tmod (ntherm.tdiv 10) = 0
        · simp [hmod]
        · simp [hmod])
  rw [Nat.zero_add] at hI
  exact ⟨t, ht, hI⟩

theorem tdiv_ten_eq_zero_iff (ntherm : ℤ) (h0 : 0 ≤ ntherm) :
    ntherm.tdiv 10 = 0 ↔ ntherm < 10 := by
  rw [Int.tdiv_eq_ediv h0 (by decide)]
  omega

end Ising2d

/-- C11 (thermalization cadence division by zero): with visual display
enabled and the thermalization count `ntherm ≥ 0`, the cadence divisor
`ntherm/10` is zero exactly when `ntherm < 10`; for every `1 ≤ ntherm ≤ 9`
the first iteration of the loop, after its sweep, evaluates `n % 0` and the
loop stops with a division by zero; the loop divides by zero for no other
value of `ntherm` (for `ntherm ≤ 0` the body never runs); for every
`ntherm ≥ 10` no iteration divides by zero and the loop runs to its end, in
particular for the configured `ntherm = 200`. -/
theorem thermalization_division_by_zero {K : Type} [LinearOrderedField K] (NX NY : ℕ)
    (exp : K → K) (draws : ℕ → K) (beta h : K) (st : Ising2d.State K) (ntherm : ℤ) :
    (0 ≤ ntherm → (ntherm.tdiv 10 = 0 ↔ ntherm < 10)) ∧
    (1 ≤ ntherm → ntherm ≤ 9 →
      Ising2d.thermStep NX NY exp draws beta h ntherm 0 ⟨st, [], []⟩
        = Except.error Ising.Fault.divByZero) ∧
    (Ising2d.thermalize NX NY exp draws beta h ntherm st
        = Except.error Ising.Fault.divByZero ↔ 1 ≤ ntherm ∧ ntherm ≤ 9) ∧
    (10 ≤ ntherm →
      (∀ (n : ℕ) (t : Ising2d.Therm K), Ising2d.thermStep NX NY exp draws beta h ntherm n t
        ≠ Except.error Ising.Fault.divByZero) ∧
      ∃ t, Ising2d.thermalize NX NY exp draws beta h ntherm st = Except.ok t) ∧
    (∃ t, Ising2d.thermalize NX NY exp draws beta h 200 st = Except.ok t) := by
  have hbig : ∀ m : ℤ, 10 ≤ m → m.tdiv 10 ≠ 0 := by
    intro m hm e
    have := (Ising2d.tdiv_ten_eq_zero_iff m (by omega)).mp e
    omega
  have hsmall : ∀ m : ℤ, 1 ≤ m → m ≤ 9 → m.tdiv 10 = 0 := fun m h1 h9 =>
    (Ising2d.tdiv_ten_eq_zero_iff m (by omega)).mpr (by omega)
  refine ⟨Ising2d.tdiv_ten_eq_zero_iff ntherm, ?_, ?_, ?_, ?_⟩
  · intro h1 h9
    exact Ising2d.thermStep_fault NX NY exp draws beta h ntherm 0 _ (hsmall ntherm h1 h9)
  · constructor
    · intro herr
      by_contra hne
      by_cases h10 : 10 ≤ ntherm
      · obtain ⟨t, ht, _⟩ := Ising2d.thermalize_ok NX NY exp draws beta h ntherm st
          (hbig ntherm h10)
        rw [ht] at herr
        cases herr
      · have h0 : ntherm.toNat = 0 := by omega
        unfold Ising2d.thermalize at herr
        rw [h0] at herr
        cases herr
    · rintro ⟨h1, h9⟩
      obtain ⟨m, hm⟩ : ∃ m, ntherm.toNat = m + 1 := ⟨ntherm.toNat - 1, by omega⟩
      unfold Ising2d.thermalize
      rw [hm]
      exact Ising.loopFromE_fault _ 0 m _ _
        (Ising2d.thermStep_fault NX NY exp draws beta h ntherm 0 _ (hsmall ntherm h1 h9))
  · intro h10
    refine ⟨?_, ?_⟩
    · intro n t herr
      obtain ⟨t', ht', _⟩ := Ising2d.thermStep_ok NX NY exp draws beta h ntherm n t
        (hbig ntherm h10)
      rw [ht'] at herr
      cases herr
    · obtain ⟨t, ht, _⟩ := Ising2d.thermalize_ok NX NY exp draws beta h ntherm st
        (hbig ntherm h10)
      exact ⟨t, ht⟩
  · obtain ⟨t, ht, _⟩ := Ising2d.thermalize_ok NX NY exp draws beta h 200 st
      (hbig 200 (by decide))
    exact ⟨t, ht⟩

/-- C11, instance: on the `1 × 1` lattice over `ℚ` with `ntherm = 5` the
first iteration of the thermalization loop stops with a division by zero,
and so does the loop. -/
theorem thermalization_division_by_zero_witness :
    Ising2d.thermStep 1 1 (fun _ => (0 : ℚ)) (fun _ => 0) 0 0 5 0
        ⟨⟨fun _ _ => 0, 0, []⟩, [], []⟩ = Except.error Ising.Fault.divByZero ∧
    Ising2d.thermalize 1 1 (fun _ => (0 : ℚ)) (fun _ => 0) 0 0 5 ⟨fun _ _ => 0, 0, []⟩
      = Except.error Ising.Fault.divByZero :=
  ⟨(thermalization_division_by_zero 1 1 (fun _ => (0 : ℚ)) (fun _ => 0) 0 0
      ⟨fun _ _ => 0, 0, []⟩ 5).2.1 (by decide) (by decide),
    (thermalization_division_by_zero 1 1 (fun _ => (0 : ℚ)) (fun _ => 0) 0 0
      ⟨fun _ _ => 0, 0, []⟩ 5).2.2.1.mpr ⟨by decide, by decide⟩⟩

/-- C13 (thermalization runs `sweep` exactly `ntherm` times and the display
does not act on the simulation): for every `ntherm ≥ 10`, every initial
lattice and every stream of deviates, the thermalization loop with visual
display enabled runs to its end, and the lattice and the number of deviates
consumed are those of `ntherm` successive calls of `sweep(beta, h)` without
any display; a frame and its sweep index are written exactly at the indices
`n < ntherm` with `n % (ntherm/10) = 0`, which for `ntherm = 200` are
`0, 20, 40, ..., 180`, ten of them. -/
theorem thermalization_runs_sweeps {K : Type} [LinearOrderedField K] (NX NY : ℕ)
    (exp : K → K) (draws : ℕ → K) (beta h : K) (st : Ising2d.State K) (ntherm : ℤ)
    (h10 : 10 ≤ ntherm) :
    ∃ t, Ising2d.thermalize NX NY exp draws beta h ntherm st = Except.ok t ∧
      Ising2d.sweeps NX NY exp draws beta h ntherm.toNat st = some t.st ∧
      t.printed = (List.range ntherm.toNat).filter
        (fun i : ℕ => (i : ℤ).tmod (ntherm.tdiv 10) = 0) ∧
      t.shown.length = t.printed.length ∧
      (ntherm = 200 →
        t.printed = [0, 20, 40, 60, 80, 100, 120, 140, 160, 180] ∧ t.shown.length = 10) := by
  have hdiv : ntherm.tdiv 10 ≠ 0 := by
    intro e
    have := (Ising2d.tdiv_ten_eq_zero_iff ntherm (by omega)).mp e
    omega
  obtain ⟨t, ht, hsw, hpr, hlen⟩ :=
    Ising2d.thermalize_ok NX NY exp draws beta h ntherm st hdiv
  refine ⟨t, ht, hsw, hpr, hlen, ?_⟩
  intro h200
  subst h200
  have hlist : (List.range (200 : ℤ).toNat).filter
      (fun i : ℕ => (i : ℤ).tmod ((200 : ℤ).tdiv 10) = 0)
      = [0, 20, 40, 60, 80, 100, 120, 140, 160, 180] := by decide
  rw [hlist] at hpr
  exact ⟨hpr, by rw [hlen, hpr]; rfl⟩

/-- C13, instance: on the `64 × 64` lattice of the program, over `ℚ`, from
the all-zero array and with the configured `ntherm = 200`, the loop runs to
its end and prints the ten indices `0, 20, ..., 180`. -/
theorem thermalization_runs_sweeps_witness :
    ∃ t, Ising2d.thermalize 64 64 (fun _ => (0 : ℚ)) (fun _ => 0) 0 0 200
        ⟨fun _ _ => 0, 0, []⟩ = Except.ok t ∧
      Ising2d.sweeps 64 64 (fun _ => (0 : ℚ)) (fun _ => 0) 0 0 (200 : ℤ).toNat
        ⟨fun _ _ => 0, 0, []⟩ = some t.st ∧
      t.printed = [0, 20, 40, 60, 80, 100, 120, 140, 160, 180] := by
  obtain ⟨t, h1, h2, _, _, h3⟩ := thermalization_runs_sweeps 64 64 (fun _ => (0 : ℚ))
    (fun _ => 0) 0 0 ⟨fun _ _ => 0, 0, []⟩ 200 (by decide)
  exact ⟨t, h1, h2, (h3 rfl).1⟩

/-- C16 (the two-spin sweep is the lattice sweep on a `1 × 2` lattice): for
all spins `s1`, `s2` (in particular in `{+1, -1}`), every `beta`, `h` and
every stream of deviates, the lattice `sweep` with `NX = 1`, `NY = 2` on a
zero-bordered array holding `s1` at `(1,1)` and `s2` at `(1,2)` runs, ends
with the spins that `sweep(&s1, &s2, beta, h)` of `twospin.cpp` yields, and
has consumed the same deviates; its two calls of `update_spin` have the
environments `beta*s2 + h` and `beta*s1' + h`, where `s1'` is the value of
the first spin after its update; and the two functions `update_spin` are the
same function. -/
theorem two_spin_sweep_is_lattice_sweep {K : Type} [LinearOrderedField K] (exp : K → K)
    (draws : ℕ → K) (beta h : K) (st : Ising2d.State K) (s1 s2 : ℤ)
    (hb : Ising2d.borderZero 1 2 st.spin) (h1 : st.spin 1 1 = s1) (h2 : st.spin 1 2 = s2) :
    (∃ st', Ising2d.sweep 1 2 exp draws beta h st = some st' ∧
      st'.spin 1 1 = (TwoSpin.sweep exp draws beta h s1 s2 st.drawn).1 ∧
      st'.spin 1 2 = (TwoSpin.sweep exp draws beta h s1 s2 st.drawn).2.1 ∧
      st'.drawn = (TwoSpin.sweep exp draws beta h s1 s2 st.drawn).2.2 ∧
      st'.calls = st.calls ++ [(1, 1, beta * (s2 : K) + h),
        (1, 2, beta * (((TwoSpin.sweep exp draws beta h s1 s2 st.drawn).1 : ℤ) : K) + h)] ∧
      Ising2d.borderZero 1 2 st'.spin) ∧
    (TwoSpin.sweep exp draws beta h s1 s2 st.drawn).2.1
      = (TwoSpin.update_spin exp draws s2
          (beta * (((TwoSpin.sweep exp draws beta h s1 s2 st.drawn).1 : ℤ) : K) + h)
          (TwoSpin.update_spin exp draws s1 (beta * (s2 : K) + h) st.drawn).2).1 ∧
    (∀ (s : ℤ) (env : K) (d : ℕ),
      TwoSpin.update_spin exp draws s env d = Ising2d.update_spin exp draws s env d) := by
  have hus : ∀ (s : ℤ) (env : K) (d : ℕ),
      TwoSpin.update_spin exp draws s env d = Ising2d.update_spin exp draws s env d :=
    fun _ _ _ => rfl
  refine ⟨?_, rfl, hus⟩
  have b10 : st.spin 1 0 = 0 := by
    have := hb 1 (by decide) 0 (by decide) (by decide); simpa using this
  have b13 : st.spin 1 3 = 0 := by
    have := hb 1 (by decide) 3 (by decide) (by decide); simpa using this
  have b01 : st.spin 0 1 = 0 := by
    have := hb 0 (by decide) 1 (by decide) (by decide); simpa using this
  have b21 : st.spin 2 1 = 0 := by
    have := hb 2 (by decide) 1 (by decide) (by decide); simpa using this
  have b02 : st.spin 0 2 = 0 := by
    have := hb 0 (by decide) 2 (by decide) (by decide); simpa using this
  have b22 : st.spin 2 2 = 0 := by
    have := hb 2 (by decide) 2 (by decide) (by decide); simpa using this
  have e1 := Ising2d.sweepSite_eq 1 2 exp draws beta h 1 1 st
    (by decide) (by decide) (by decide) (by decide)
  have e2 := Ising2d.sweepSite_eq 1 2 exp draws beta h 1 2
    (Ising2d.siteResult exp draws beta h 1 1 st) (by decide) (by decide) (by decide) (by decide)
  have hsw : Ising2d.sweep 1 2 exp draws beta h st
      = some (Ising2d.siteResult exp draws beta h 1 2
          (Ising2d.siteResult exp draws beta h 1 1 st)) := by
    simp [Ising2d.sweep, Ising2d.sweepRow, Ising.forRange, Ising.loopFrom, e1, e2]
  have henv1 : Ising2d.siteEnv beta h st.spin 1 1 = beta * (s2 : K) + h := by
    simp only [Ising2d.siteEnv]
    norm_num
    rw [b10, b01, b21, h2]
    simp
  have hb1 := Ising2d.siteResult_borderZero 1 2 exp draws beta h 1 1 st
    (by decide) (by decide) (by decide) (by decide) hb
  have hb2 := Ising2d.siteResult_borderZero 1 2 exp draws beta h 1 2
    (Ising2d.siteResult exp draws beta h 1 1 st)
    (by decide) (by decide) (by decide) (by decide) hb1
  have hr1 : (Ising2d.siteResult exp draws beta h 1 1 st)
      = ⟨Ising2d.setSpin st.spin 1 1
          (Ising2d.update_spin exp draws s1 (beta * (s2 : K) + h) st.drawn).1,
        (Ising2d.update_spin exp draws s1 (beta * (s2 : K) + h) st.drawn).2,
        st.calls ++ [(1, 1, beta * (s2 : K) + h)]⟩ := by
    simp only [Ising2d.siteResult, henv1, Nat.cast_one, h1]
  have c10 : (Ising2d.siteResult exp draws beta h 1 1 st).spin 1 1
      = (Ising2d.update_spin exp draws s1 (beta * (s2 : K) + h) st.drawn).1 := by
    rw [hr1]; exact Ising2d.setSpin_same st.spin 1 1 _
  have c12 : (Ising2d.siteResult exp draws beta h 1 1 st).spin 1 2 = s2 := by
    rw [hr1]
    simp [Ising2d.setSpin, h2]
  have c13 : (Ising2d.siteResult exp draws beta h 1 1 st).spin 1 3 = 0 := by
    have := hb1 1 (by decide) 3 (by decide) (by decide); simpa using this
  have c02 : (Ising2d.siteResult exp draws beta h 1 1 st).spin 0 2 = 0 := by
    have := hb1 0 (by decide) 2 (by decide) (by decide); simpa using this
  have c22 : (Ising2d.siteResult exp draws beta h 1 1 st).spin 2 2 = 0 := by
    have := hb1 2 (by decide) 2 (by decide) (by decide); simpa using this
  have henv2 : Ising2d.siteEnv beta h (Ising2d.siteResult exp draws beta h 1 1 st).spin 1 2
      = beta * (((Ising2d.update_spin exp draws s1 (beta * (s2 : K) + h) st.drawn).1 : ℤ) : K)
        + h := by
    simp only [Ising2d.siteEnv]
    norm_num
    rw [c10, c13, c02, c22]
    simp
  have hr2 : (Ising2d.siteResult exp draws beta h 1 2
        (Ising2d.siteResult exp draws beta h 1 1 st))
      = ⟨Ising2d.setSpin (Ising2d.siteResult exp draws beta h 1 1 st).spin 1 2
          (Ising2d.update_spin exp draws s2
            (beta * (((Ising2d.update_spin exp draws s1 (beta * (s2 : K) + h) st.drawn).1 : ℤ)
              : K) + h)
            (Ising2d.update_spin exp draws s1 (beta * (s2 : K) + h) st.drawn).2).1,
        (Ising2d.update_spin exp draws s2
            (beta * (((Ising2d.update_spin exp draws s1 (beta * (s2 : K) + h) st.drawn).1 : ℤ)
              : K) + h)
            (Ising2d.update_spin exp draws s1 (beta * (s2 : K) + h) st.drawn).2).2,
        (st.calls ++ [(1, 1, beta * (s2 : K) + h)]) ++ [(1, 2,
          beta * (((Ising2d.update_spin exp draws s1 (beta * (s2 : K) + h) st.drawn).1 : ℤ)
            : K) + h)]⟩ := by
    have hd : (Ising2d.siteResult exp draws beta h 1 1 st).drawn
        = (Ising2d.update_spin exp draws s1 (beta * (s2 : K) + h) st.drawn).2 := by
      rw [hr1]
    have hc : (Ising2d.siteResult exp draws beta h 1 1 st).calls
        = st.calls ++ [(1, 1, beta * (s2 : K) + h)] := by
      rw [hr1]
    have c12' : (Ising2d.siteResult exp draws beta h 1 1 st).spin ((1 : ℕ) : ℤ) ((2 : ℕ) : ℤ)
        = s2 := by simpa using c12
    generalize Ising2d.siteResult exp draws beta h 1 1 st = r1 at henv2 hd hc c12' ⊢
    simp only [Ising2d.siteResult, henv2, hd, hc, c12']
    simp
  refine ⟨_, hsw, ?_, ?_, ?_, ?_, hb2⟩
  · have g : (Ising2d.siteResult exp draws beta h 1 2
        (Ising2d.siteResult exp draws beta h 1 1 st)).spin 1 1
        = (Ising2d.siteResult exp draws beta h 1 1 st).spin 1 1 := by
      rw [hr2]
      simp [Ising2d.setSpin]
    rw [g, c10]
    rfl
  · rw [hr2]
    simp only [Ising2d.setSpin, and_self, if_true]
    rfl
  · rw [hr2]
    rfl
  · rw [hr2]
    simp only [List.append_assoc, List.singleton_append]
    rfl

/-- C16, instance: the `1 × 2` array over `ℚ` with zero border and `+1` in
both interior cells, all deviates 0, `beta = 1`, `h = 0`: the lattice sweep
runs and ends with the spins and the deviate count of the two-spin sweep
from `s1 = s2 = +1`. -/
theorem two_spin_sweep_is_lattice_sweep_witness :
    ∃ st', Ising2d.sweep 1 2 (fun _ => (0 : ℚ)) (fun _ => 0) 1 0
        ⟨fun i j => if i = 1 ∧ (j = 1 ∨ j = 2) then 1 else 0, 0, []⟩ = some st' ∧
      st'.spin 1 1 = (TwoSpin.sweep (fun _ => (0 : ℚ)) (fun _ => 0) 1 0 1 1 0).1 ∧
      st'.spin 1 2 = (TwoSpin.sweep (fun _ => (0 : ℚ)) (fun _ => 0) 1 0 1 1 0).2.1 ∧
      st'.drawn = (TwoSpin.sweep (fun _ => (0 : ℚ)) (fun _ => 0) 1 0 1 1 0).2.2 := by
  obtain ⟨⟨st', h1, h2, h3, h4, _⟩, _⟩ := two_spin_sweep_is_lattice_sweep
    (fun _ => (0 : ℚ)) (fun _ => 0) 1 0
    ⟨fun i j => if i = 1 ∧ (j = 1 ∨ j = 2) then 1 else 0, 0, []⟩ 1 1
    (by decide) (by decide) (by decide)
  exact ⟨st', h1, h2, h3, h4⟩

/-! ## The loop of twospin.cpp -/

namespace TwoSpin

open Ising

theorem pm_of_update_spin {K : Type} [LinearOrderedField K] (exp : K → K)
    (draws : ℕ → K) (s : ℤ) (env : K) (drawn : ℕ) (hs : s = 1 ∨ s = -1) :
    (update_spin exp draws s env drawn).1 = 1 ∨ (update_spin exp draws s env drawn).1 = -1 :=
  Ising2d.update_spin_pm exp draws s env drawn hs

theorem sweep_pm {K : Type} [LinearOrderedField K] (exp : K → K) (draws : ℕ → K)
    (beta h : K) (s1 s2 : ℤ) (drawn : ℕ) (h1 : s1 = 1 ∨ s1 = -1) (h2 : s2 = 1 ∨ s2 = -1) :
    ((sweep exp draws beta h s1 s2 drawn).1 = 1 ∨ (sweep exp draws beta h s1 s2 drawn).1 = -1) ∧
    ((sweep exp draws beta h s1 s2 drawn).2.1 = 1 ∨
      (sweep exp draws beta h s1 s2 drawn).2.1 = -1) :=
  ⟨pm_of_update_spin exp draws s1 _ drawn h1, pm_of_update_spin exp draws s2 _ _ h2⟩

theorem hotStart_accounted {K : Type} [LinearOrderedField K] (draws : ℕ → K) (drawn : ℕ) :
    Accounted 0 (hotStart draws drawn) := by
  unfold Accounted hotStart
  simp only
  refine ⟨?_, ?_, ?_⟩
  · split_ifs
    · exact Or.inl rfl
    · exact Or.inr rfl
  · split_ifs
    · exact Or.inl rfl
    · exact Or.inr rfl
  · simp

/-- One run of the loop body keeps the accounting relations and increments
exactly one state counter, as long as no counter can overflow. -/
theorem loopBody_step {K : Type} [LinearOrderedField K] (exp : K → K) (draws : ℕ → K)
    (beta h : K) (n : ℕ) (r : Run) (hI : Accounted n r) (hn : 2 * (n + 1) < 2 ^ 31) :
    Accounted (n + 1) (loopBody exp draws beta h r) ∧
      oneCounted r (loopBody exp draws beta h r) := by
  obtain ⟨h1, h2, p1, p2, p3, p4, hsum, hcorr, hmag, htot⟩ := hI
  obtain ⟨g1, g2⟩ := sweep_pm exp draws beta h r.spin1 r.spin2 r.drawn h1 h2
  unfold Accounted oneCounted
  simp only [loopBody]
  generalize sweep exp draws beta h r.spin1 r.spin2 r.drawn = s at g1 g2 ⊢
  push_cast
  rcases g1 with g1 | g1 <;> rcases g2 with g2 | g2 <;>
    simp only [g1, g2, wrapInt] <;> norm_num <;> omega

end TwoSpin

namespace TwoSpin

open Ising

theorem mainLoop_step {K : Type} [LinearOrderedField K] (exp : K → K) (draws : ℕ → K)
    (beta h : K) (n : ℕ) (r : Run) :
    mainLoop exp draws beta h (n + 1) r
      = loopBody exp draws beta h (mainLoop exp draws beta h n r) :=
  Function.iterate_succ_apply' _ _ _

/-- The accounting relations hold after every number of runs of the loop
body for which no counter can overflow. -/
theorem mainLoop_accounted {K : Type} [LinearOrderedField K] (exp : K → K) (draws : ℕ → K)
    (beta h : K) (drawn : ℕ) (n : ℕ) (hn : 2 * n < 2 ^ 31) :
    Accounted n (mainLoop exp draws beta h n (hotStart draws drawn)) := by
  induction n with
  | zero => exact hotStart_accounted draws drawn
  | succ n ih =>
    rw [mainLoop_step]
    exact (loopBody_step exp draws beta h n _ (ih (by omega)) hn).1

end TwoSpin

/-- C17 (two-spin correlation accounting): for every sweep count `nsweep`
for which no `int` counter of the program overflows (`2*nsweep < 2^31`),
every `beta`, `h` and every stream of deviates, after the loop of `main`
`ncorr = (nupup + ndowndown) - (nupdown + ndownup)`; hence, for
`nsweep ≥ 1`, where the quotients are defined, the reported correlation
`ncorr/nsweep` equals `P(++) + P(--) - P(+-) - P(-+)` and is positive exactly
when `P(++) + P(--) > P(+-) + P(-+)`. -/
theorem two_spin_correlation {K : Type} [LinearOrderedField K] (exp : K → K)
    (draws : ℕ → K) (beta h : K) (drawn : ℕ) (nsweep : ℕ) (hov : 2 * nsweep < 2 ^ 31)
    (r : TwoSpin.Run)
    (hr : r = TwoSpin.mainLoop exp draws beta h nsweep (TwoSpin.hotStart draws drawn)) :
    r.ncorr = (r.nupup + r.ndowndown) - (r.nupdown + r.ndownup) ∧
    (1 ≤ nsweep →
      (TwoSpin.reportCorrelation r nsweep : K)
        = TwoSpin.reportUpUp r nsweep + TwoSpin.reportDownDown r nsweep
          - TwoSpin.reportUpDown r nsweep - TwoSpin.reportDownUp r nsweep ∧
      ((0 : K) < TwoSpin.reportCorrelation r nsweep ↔
        (TwoSpin.reportUpDown r nsweep + TwoSpin.reportDownUp r nsweep : K)
          < TwoSpin.reportUpUp r nsweep + TwoSpin.reportDownDown r nsweep)) := by
  have hacc := TwoSpin.mainLoop_accounted exp draws beta h drawn nsweep hov
  rw [← hr] at hacc
  obtain ⟨_, _, _, _, _, _, _, hcorr, _, _⟩ := hacc
  refine ⟨hcorr, ?_⟩
  intro h1
  have hS : (0 : K) < (nsweep : K) := by exact_mod_cast h1
  have heq : (TwoSpin.reportCorrelation r nsweep : K)
        = TwoSpin.reportUpUp r nsweep + TwoSpin.reportDownDown r nsweep
          - TwoSpin.reportUpDown r nsweep - TwoSpin.reportDownUp r nsweep := by
    unfold TwoSpin.reportCorrelation TwoSpin.reportUpUp TwoSpin.reportDownDown
      TwoSpin.reportUpDown TwoSpin.reportDownUp
    rw [hcorr]
    push_cast
    ring
  refine ⟨heq, ?_⟩
  rw [heq]
  constructor
  · intro hpos; linarith
  · intro hlt; linarith

/-- C17, instance: over `ℚ`, all deviates 0, `beta = 1`, `h = 0`, three
sweeps: the accounting identity and the identity of the reported values. -/
theorem two_spin_correlation_witness :
    (TwoSpin.mainLoop (fun _ => (0 : ℚ)) (fun _ => 0) 1 0 3
        (TwoSpin.hotStart (fun _ => (0 : ℚ)) 0)).ncorr
      = ((TwoSpin.mainLoop (fun _ => (0 : ℚ)) (fun _ => 0) 1 0 3
          (TwoSpin.hotStart (fun _ => (0 : ℚ)) 0)).nupup
        + (TwoSpin.mainLoop (fun _ => (0 : ℚ)) (fun _ => 0) 1 0 3
          (TwoSpin.hotStart (fun _ => (0 : ℚ)) 0)).ndowndown)
        - ((TwoSpin.mainLoop (fun _ => (0 : ℚ)) (fun _ => 0) 1 0 3
          (TwoSpin.hotStart (fun _ => (0 : ℚ)) 0)).nupdown
        + (TwoSpin.mainLoop (fun _ => (0 : ℚ)) (fun _ => 0) 1 0 3
          (TwoSpin.hotStart (fun _ => (0 : ℚ)) 0)).ndownup) :=
  (two_spin_correlation (fun _ => (0 : ℚ)) (fun _ => 0) 1 0 0 3 (by norm_num) _ rfl).1

/-- C18 (the joint-state counts partition the sweeps): for every sweep count
`nsweep` for which no `int` counter overflows (`2*nsweep < 2^31`), every
`beta`, `h` and every stream of deviates, both spins are `+1` or `-1` after
the hot start and after every sweep, every run of the loop body increments
exactly one of the four counters, and after the loop
`nupup + nupdown + ndownup + ndowndown = nsweep`, `ntotal = 2*nsweep` and
`nmag = 2*(nupup - ndowndown)`; so for `nsweep ≥ 1` the four reported
probabilities add up to 1. -/
theorem two_spin_counts_partition {K : Type} [LinearOrderedField K] (exp : K → K)
    (draws : ℕ → K) (beta h : K) (drawn : ℕ) (nsweep : ℕ) (hov : 2 * nsweep < 2 ^ 31)
    (r : TwoSpin.Run)
    (hr : r = TwoSpin.mainLoop exp draws beta h nsweep (TwoSpin.hotStart draws drawn)) :
    (∀ n, n ≤ nsweep →
      ((TwoSpin.mainLoop exp draws beta h n (TwoSpin.hotStart draws drawn)).spin1 = 1 ∨
        (TwoSpin.mainLoop exp draws beta h n (TwoSpin.hotStart draws drawn)).spin1 = -1) ∧
      ((TwoSpin.mainLoop exp draws beta h n (TwoSpin.hotStart draws drawn)).spin2 = 1 ∨
        (TwoSpin.mainLoop exp draws beta h n (TwoSpin.hotStart draws drawn)).spin2 = -1)) ∧
    (∀ n, n < nsweep →
      TwoSpin.oneCounted (TwoSpin.mainLoop exp draws beta h n (TwoSpin.hotStart draws drawn))
        (TwoSpin.mainLoop exp draws beta h (n + 1) (TwoSpin.hotStart draws drawn))) ∧
    r.nupup + r.nupdown + r.ndownup + r.ndowndown = (nsweep : ℤ) ∧
    r.ntotal = 2 * (nsweep : ℤ) ∧
    r.nmag = 2 * (r.nupup - r.ndowndown) ∧
    (1 ≤ nsweep →
      (TwoSpin.reportUpUp r nsweep + TwoSpin.reportUpDown r nsweep
        + TwoSpin.reportDownUp r nsweep + TwoSpin.reportDownDown r nsweep : K) = 1) := by
  have hacc := TwoSpin.mainLoop_accounted exp draws beta h drawn nsweep hov
  rw [← hr] at hacc
  obtain ⟨_, _, _, _, _, _, hsum, _, hmag, htot⟩ := hacc
  refine ⟨?_, ?_, hsum, htot, hmag, ?_⟩
  · intro n hn
    have := TwoSpin.mainLoop_accounted exp draws beta h drawn n (by omega)
    exact ⟨this.1, this.2.1⟩
  · intro n hn
    rw [TwoSpin.mainLoop_step]
    exact (TwoSpin.loopBody_step exp draws beta h n _
      (TwoSpin.mainLoop_accounted exp draws beta h drawn n (by omega)) (by omega)).2
  · intro h1
    have hS : (nsweep : K) ≠ 0 := by
      have : (0 : K) < (nsweep : K) := by exact_mod_cast h1
      exact ne_of_gt this
    unfold TwoSpin.reportUpUp TwoSpin.reportDownDown TwoSpin.reportUpDown TwoSpin.reportDownUp
    rw [← add_div, ← add_div, ← add_div, div_eq_one_iff_eq hS]
    have : ((r.nupup + r.nupdown + r.ndownup + r.ndowndown : ℤ) : K) = ((nsweep : ℤ) : K) := by
      rw [hsum]
    push_cast at this
    exact this

/-- C18, instance: over `ℚ`, all deviates 0, `beta = 1`, `h = 0`, three
sweeps: the four counters add up to 3 and `ntotal = 6`. -/
theorem two_spin_counts_partition_witness :
    (TwoSpin.mainLoop (fun _ => (0 : ℚ)) (fun _ => 0) 1 0 3
        (TwoSpin.hotStart (fun _ => (0 : ℚ)) 0)).ntotal = 2 * ((3 : ℕ) : ℤ) :=
  (two_spin_counts_partition (fun _ => (0 : ℚ)) (fun _ => 0) 1 0 0 3 (by norm_num) _ rfl).2.2.2.1

/-! ## The loop of onespin.cpp at zero field -/

namespace OneSpin

open Ising

theorem update_zero_field {K : Type} [LinearOrderedField K] (exp : K → K)
    (draws : ℕ → K) (s : ℤ) (drawn : ℕ) : update exp draws s 0 drawn = (-s, drawn) := by
  unfold update
  simp

theorem mainLoop_unfold {K : Type} [LinearOrderedField K] (exp : K → K) (draws : ℕ → K)
    (h : K) (n drawn : ℕ) :
    mainLoop exp draws h (n + 1) drawn = loopBody exp draws h (mainLoop exp draws h n drawn) :=
  Function.iterate_succ_apply' _ _ _

/-- The variables of `main` after `n` runs of the loop body at `h = 0`. -/
theorem mainLoop_zero_field {K : Type} [LinearOrderedField K] (exp : K → K)
    (draws : ℕ → K) (drawn : ℕ) (n : ℕ) (hn : n < 2 ^ 31) :
    mainLoop exp draws 0 n drawn
      = { spin := if n % 2 = 0 then 1 else -1, drawn := drawn,
          nplus := ((n / 2 : ℕ) : ℤ), nminus := (((n + 1) / 2 : ℕ) : ℤ) } := by
  induction n with
  | zero => rfl
  | succ n ih =>
    rw [mainLoop_unfold, ih (by omega)]
    simp only [loopBody, update_zero_field]
    have hw1 : wrapInt (((n / 2 : ℕ) : ℤ) + 1) = ((n / 2 : ℕ) : ℤ) + 1 := by
      apply Ising2d.wrapInt_eq <;> omega
    have hw2 : wrapInt ((((n + 1) / 2 : ℕ) : ℤ) + 1) = (((n + 1) / 2 : ℕ) : ℤ) + 1 := by
      apply Ising2d.wrapInt_eq <;> omega
    rw [hw1, hw2]
    rcases Nat.mod_two_eq_zero_or_one n with he | ho
    · have e1 : (n + 1) % 2 = 1 := by omega
      simp only [he, e1]
      norm_num
      constructor <;> omega
    · have e1 : (n + 1) % 2 = 0 := by omega
      simp only [ho, e1]
      norm_num
      constructor <;> omega

end OneSpin

/-- C19 (the one-spin program at zero field is deterministic): with `h = 0`,
for every `int` sweep count `nsweep` and every stream of deviates, every
call of `update` stores the flipped spin and consumes no deviate; after `n`
runs of the loop body the spin is `+1` for even `n` and `-1` for odd `n`
(it alternates `-1, +1, -1, ...` from the initial `+1`) and no deviate has
been drawn; after the loop `nminus = ceil(nsweep/2)` and
`nplus = floor(nsweep/2)`, so the reported `<sigma>` is exactly 0 for even
`nsweep ≥ 2` and exactly `-1/nsweep` for odd `nsweep`. -/
theorem one_spin_zero_field {K : Type} [LinearOrderedField K] (exp : K → K)
    (draws : ℕ → K) (drawn : ℕ) (nsweep : ℕ) (hn : nsweep < 2 ^ 31) :
    (∀ (s : ℤ) (d : ℕ), OneSpin.update exp draws s 0 d = (-s, d)) ∧
    (∀ n, n ≤ nsweep →
      (OneSpin.mainLoop exp draws 0 n drawn).spin = (if n % 2 = 0 then 1 else -1) ∧
      (OneSpin.mainLoop exp draws 0 n drawn).drawn = drawn) ∧
    (OneSpin.mainLoop exp draws 0 nsweep drawn).nminus = (((nsweep + 1) / 2 : ℕ) : ℤ) ∧
    (OneSpin.mainLoop exp draws 0 nsweep drawn).nplus = ((nsweep / 2 : ℕ) : ℤ) ∧
    (nsweep % 2 = 0 → 2 ≤ nsweep →
      (OneSpin.reportSigma (OneSpin.mainLoop exp draws 0 nsweep drawn) : K) = 0) ∧
    (nsweep % 2 = 1 →
      (OneSpin.reportSigma (OneSpin.mainLoop exp draws 0 nsweep drawn) : K)
        = -1 / (nsweep : K)) := by
  refine ⟨fun s d => OneSpin.update_zero_field exp draws s d, ?_, ?_, ?_, ?_, ?_⟩
  · intro n hle
    rw [OneSpin.mainLoop_zero_field exp draws drawn n (by omega)]
    exact ⟨rfl, rfl⟩
  · rw [OneSpin.mainLoop_zero_field exp draws drawn nsweep hn]
  · rw [OneSpin.mainLoop_zero_field exp draws drawn nsweep hn]
  · intro he _
    rw [OneSpin.mainLoop_zero_field exp draws drawn nsweep hn]
    unfold OneSpin.reportSigma
    have e : ((nsweep / 2 : ℕ) : ℤ) - (((nsweep + 1) / 2 : ℕ) : ℤ) = 0 := by omega
    simp only [e]
    have hw : Ising.wrapInt 0 = 0 := by decide
    rw [hw]
    simp
  · intro ho
    rw [OneSpin.mainLoop_zero_field exp draws drawn nsweep hn]
    unfold OneSpin.reportSigma
    have e1 : ((nsweep / 2 : ℕ) : ℤ) - (((nsweep + 1) / 2 : ℕ) : ℤ) = -1 := by omega
    have e2 : ((nsweep / 2 : ℕ) : ℤ) + (((nsweep + 1) / 2 : ℕ) : ℤ) = (nsweep : ℤ) := by omega
    simp only [e1, e2]
    have hw1 : Ising.wrapInt (-1) = -1 := by decide
    have hw2 : Ising.wrapInt (nsweep : ℤ) = (nsweep : ℤ) := by
      apply Ising2d.wrapInt_eq <;> omega
    rw [hw1, hw2]
    push_cast
    rfl

/-- C19, instance: over `ℚ` with seven sweeps at `h = 0`: `nminus = 4`,
`nplus = 3` and the reported `<sigma>` is `-1/7`. -/
theorem one_spin_zero_field_witness :
    (OneSpin.mainLoop (fun _ => (0 : ℚ)) (fun _ => 0) 0 7 0).nminus = (((7 + 1) / 2 : ℕ) : ℤ) ∧
    (OneSpin.mainLoop (fun _ => (0 : ℚ)) (fun _ => 0) 0 7 0).nplus = ((7 / 2 : ℕ) : ℤ) ∧
    (OneSpin.reportSigma (OneSpin.mainLoop (fun _ => (0 : ℚ)) (fun _ => 0) 0 7 0) : ℚ)
      = -1 / ((7 : ℕ) : ℚ) :=
  ⟨(one_spin_zero_field (fun _ => (0 : ℚ)) (fun _ => 0) 0 7 (by norm_num)).2.2.1,
    (one_spin_zero_field (fun _ => (0 : ℚ)) (fun _ => 0) 0 7 (by norm_num)).2.2.2.1,
    (one_spin_zero_field (fun _ => (0 : ℚ)) (fun _ => 0) 0 7 (by norm_num)).2.2.2.2.2
      (by decide)⟩

/-! ## Acceptance probabilities over the reals -/

namespace Ising

/-- The deviates of `[0, 1)` that pass the acceptance test
`DeltaBetaE <= 0 || u < exp(-DeltaBetaE)` form the interval from 0 to the
acceptance probability. -/
theorem accept_test_set (D : ℝ) :
    {u : ℝ | u ∈ Set.Ico (0 : ℝ) 1 ∧ (D ≤ 0 ∨ u < Real.exp (-D))}
      = Set.Ico 0 (if D ≤ 0 then 1 else Real.exp (-D)) := by
  ext u
  simp only [Set.mem_setOf_eq, Set.mem_Ico]
  by_cases hD : D ≤ 0
  · simp only [hD, true_or, and_true, if_true]
  · have hlt : Real.exp (-D) < 1 := Real.exp_lt_one_iff.mpr (by linarith)
    simp only [hD, false_or, if_false]
    constructor
    · rintro ⟨⟨h0, _⟩, hu⟩
      exact ⟨h0, hu⟩
    · rintro ⟨h0, hu⟩
      exact ⟨⟨h0, by linarith⟩, hu⟩

theorem acceptProb_pos (s s' : ℤ) (env : ℝ) : 0 < acceptProb Real.exp s s' env := by
  unfold acceptProb
  split_ifs
  · exact one_pos
  · exact Real.exp_pos _

theorem acceptProb_le_one (s s' : ℤ) (env : ℝ) : acceptProb Real.exp s s' env ≤ 1 := by
  unfold acceptProb
  split_ifs with hD
  · exact le_refl _
  · exact le_of_lt (Real.exp_lt_one_iff.mpr (by linarith))

/-- Detailed balance of the acceptance probability for spins `+1`, `-1`. -/
theorem acceptProb_balance (env : ℝ) (s s' : ℤ) (hs : s = 1 ∨ s = -1)
    (hs' : s' = 1 ∨ s' = -1) :
    Real.exp ((s : ℝ) * env) * acceptProb Real.exp s s' env
      = Real.exp ((s' : ℝ) * env) * acceptProb Real.exp s' s env := by
  rcases hs with rfl | rfl <;> rcases hs' with rfl | rfl
  · rfl
  · unfold acceptProb
    norm_num
    split_ifs with h1 h2 h2
    · have : env = 0 := by linarith
      simp [this]
    · rw [← Real.exp_add]; ring_nf
    · rw [← Real.exp_add]; ring_nf
    · exfalso; linarith
  · unfold acceptProb
    norm_num
    split_ifs with h1 h2 h2
    · have : env = 0 := by linarith
      simp [this]
    · rw [← Real.exp_add]; ring_nf
    · rw [← Real.exp_add]; ring_nf
    · exfalso; linarith
  · rfl

end Ising

namespace OneSpin

open Ising

/-- The deviates of `[0, 1)` for which `update` stores the flipped spin. -/
theorem flip_set (env : ℝ) (s : ℤ) (hs : s = 1 ∨ s = -1) (drawn : ℕ) :
    {u : ℝ | u ∈ Set.Ico (0 : ℝ) 1 ∧ (update Real.exp (fun _ => u) s env drawn).1 = -s}
      = Set.Ico 0 (acceptProb Real.exp s (-s) env) := by
  have hne : s ≠ -s := by omega
  unfold acceptProb
  rw [← accept_test_set]
  ext u
  simp only [Set.mem_setOf_eq, Set.mem_Ico, and_congr_right_iff]
  intro _
  unfold update drand48
  simp only
  by_cases hD : ((-(-s - s) : ℤ) : ℝ) * env ≤ 0
  · rw [if_pos hD]
    exact ⟨fun _ => Or.inl hD, fun _ => rfl⟩
  · rw [if_neg hD]
    by_cases hu : u < Real.exp (-(((-(-s - s) : ℤ) : ℝ) * env))
    · rw [if_pos hu]
      exact ⟨fun _ => Or.inr hu, fun _ => rfl⟩
    · rw [if_neg hu]
      exact ⟨fun e => absurd e hne, fun hor => hor.elim (fun a => absurd a hD)
        (fun a => absurd a hu)⟩

theorem flip_volume (env : ℝ) (s : ℤ) (hs : s = 1 ∨ s = -1) (drawn : ℕ) :
    MeasureTheory.volume
        {u : ℝ | u ∈ Set.Ico (0 : ℝ) 1 ∧ (update Real.exp (fun _ => u) s env drawn).1 = -s}
      = ENNReal.ofReal (acceptProb Real.exp s (-s) env) := by
  rw [flip_set env s hs drawn, Real.volume_Ico, sub_zero]

end OneSpin

namespace Ising2d

open Ising

/-- The second deviates of `[0, 1)` for which `update_spin` ends with the
candidate that the first deviate `u0` fixes. -/
theorem candidate_set (env : ℝ) (s : ℤ) (u0 : ℝ) (drawn : ℕ) :
    {u : ℝ | u ∈ Set.Ico (0 : ℝ) 1 ∧
        (update_spin Real.exp (fun n => if n = drawn then u0 else u) s env drawn).1
          = (if u0 < 1 / 2 then 1 else -1)}
      = Set.Ico 0 (acceptProb Real.exp s (if u0 < 1 / 2 then 1 else -1) env) := by
  unfold acceptProb
  rw [← accept_test_set]
  ext u
  simp only [Set.mem_setOf_eq, Set.mem_Ico, and_congr_right_iff]
  intro _
  have hd : drawn + 1 ≠ drawn := by omega
  unfold update_spin drand48
  simp only [if_true, if_neg hd]
  generalize (if u0 < 1 / 2 then (1 : ℤ) else -1) = c
  by_cases hD : ((-(c - s) : ℤ) : ℝ) * env ≤ 0
  · rw [if_pos hD]
    exact ⟨fun _ => Or.inl hD, fun _ => rfl⟩
  · rw [if_neg hD]
    have hne : s ≠ c := by
      intro e
      apply hD
      rw [e]
      simp
    by_cases hu : u < Real.exp (-(((-(c - s) : ℤ) : ℝ) * env))
    · rw [if_pos hu]
      exact ⟨fun _ => Or.inr hu, fun _ => rfl⟩
    · rw [if_neg hu]
      exact ⟨fun e => absurd e hne, fun hor => hor.elim (fun a => absurd a hD)
        (fun a => absurd a hu)⟩

theorem candidate_volume (env : ℝ) (s : ℤ) (u0 : ℝ) (drawn : ℕ) :
    MeasureTheory.volume
        {u : ℝ | u ∈ Set.Ico (0 : ℝ) 1 ∧
          (update_spin Real.exp (fun n => if n = drawn then u0 else u) s env drawn).1
            = (if u0 < 1 / 2 then 1 else -1)}
      = ENNReal.ofReal (acceptProb Real.exp s (if u0 < 1 / 2 then 1 else -1) env) := by
  rw [candidate_set env s u0 drawn, Real.volume_Ico, sub_zero]

end Ising2d

/-- C14 (detailed balance of the acceptance rule): for every real `env` and
spins `s`, `s'` in `{+1, -1}`, the probability over a uniform deviate `u` of
`[0, 1)` that the update ends with the candidate `s'` from the current spin
`s` is `A(s → s') = acceptProb Real.exp s s' env`, both for `update` of
`onespin.cpp` (candidate `-s`) and for `update_spin` of `ising2d.cpp`
(candidate fixed by the first deviate, `u` the second one); `A` is 1 if
`-(s'-s)*env ≤ 0` and `exp((s'-s)*env)`, a number of `(0, 1)`, otherwise; and
`exp(s*env) * A(s → s') = exp(s'*env) * A(s' → s)`. -/
theorem detailed_balance (env : ℝ) (s s' : ℤ) (hs : s = 1 ∨ s = -1)
    (hs' : s' = 1 ∨ s' = -1) :
    (s' = -s → ∀ drawn : ℕ,
      MeasureTheory.volume {u : ℝ | u ∈ Set.Ico (0 : ℝ) 1 ∧
          (OneSpin.update Real.exp (fun _ => u) s env drawn).1 = s'}
        = ENNReal.ofReal (Ising.acceptProb Real.exp s s' env)) ∧
    (∀ (u0 : ℝ) (drawn : ℕ), s' = (if u0 < 1 / 2 then 1 else -1) →
      MeasureTheory.volume {u : ℝ | u ∈ Set.Ico (0 : ℝ) 1 ∧
          (Ising2d.update_spin Real.exp (fun n => if n = drawn then u0 else u) s env drawn).1
            = s'}
        = ENNReal.ofReal (Ising.acceptProb Real.exp s s' env)) ∧
    (((-(s' - s) : ℤ) : ℝ) * env ≤ 0 → Ising.acceptProb Real.exp s s' env = 1) ∧
    (0 < ((-(s' - s) : ℤ) : ℝ) * env →
      Ising.acceptProb Real.exp s s' env = Real.exp (((s' - s : ℤ) : ℝ) * env) ∧
      0 < Ising.acceptProb Real.exp s s' env ∧ Ising.acceptProb Real.exp s s' env < 1) ∧
    Real.exp ((s : ℝ) * env) * Ising.acceptProb Real.exp s s' env
      = Real.exp ((s' : ℝ) * env) * Ising.acceptProb Real.exp s' s env := by
  refine ⟨?_, ?_, ?_, ?_, Ising.acceptProb_balance env s s' hs hs'⟩
  · intro e drawn
    subst e
    exact OneSpin.flip_volume env s hs drawn
  · intro u0 drawn e
    subst e
    exact Ising2d.candidate_volume env s u0 drawn
  · intro hD
    unfold Ising.acceptProb
    rw [if_pos hD]
  · intro hD
    have hnle : ¬ ((-(s' - s) : ℤ) : ℝ) * env ≤ 0 := not_le.mpr hD
    have hval : Ising.acceptProb Real.exp s s' env = Real.exp (((s' - s : ℤ) : ℝ) * env) := by
      unfold Ising.acceptProb
      rw [if_neg hnle]
      congr 1
      push_cast
      ring
    refine ⟨hval, Ising.acceptProb_pos s s' env, ?_⟩
    rw [hval]
    apply Real.exp_lt_one_iff.mpr
    have : ((-(s' - s) : ℤ) : ℝ) = -(((s' - s : ℤ)) : ℝ) := by push_cast; ring
    rw [this] at hD
    linarith

/-- C14, instance: `env = 1`, `s = +1`, `s' = -1`: the move is uphill, its
acceptance probability is `exp(-2)`, and detailed balance reads
`exp(1) * A(+1 → -1) = exp(-1) * A(-1 → +1)`. -/
theorem detailed_balance_witness :
    Real.exp (((1 : ℤ) : ℝ) * 1) * Ising.acceptProb Real.exp 1 (-1) 1
      = Real.exp (((-1 : ℤ) : ℝ) * 1) * Ising.acceptProb Real.exp (-1) 1 1 :=
  (detailed_balance 1 1 (-1) (Or.inl rfl) (Or.inr rfl)).2.2.2.2

/-- C15 (single-spin analytic check): for every real `h`, the flip
probabilities of the one-spin update, as probabilities over a uniform
deviate of `[0, 1)`, are `P(+1 → -1) = min(1, exp(-2h))` and
`P(-1 → +1) = min(1, exp(2h))`; the two-state Markov chain with these flip
probabilities has exactly one stationary distribution,
`pi(+1) = exp(h)/(exp(h)+exp(-h))`, `pi(-1) = exp(-h)/(exp(h)+exp(-h))`, and
its mean spin is `tanh(h)`. -/
theorem single_spin_stationary (h : ℝ) :
    (∀ drawn : ℕ,
      MeasureTheory.volume {u : ℝ | u ∈ Set.Ico (0 : ℝ) 1 ∧
          (OneSpin.update Real.exp (fun _ => u) 1 h drawn).1 = -1}
        = ENNReal.ofReal (Ising.acceptProb Real.exp 1 (-1) h)) ∧
    (∀ drawn : ℕ,
      MeasureTheory.volume {u : ℝ | u ∈ Set.Ico (0 : ℝ) 1 ∧
          (OneSpin.update Real.exp (fun _ => u) (-1) h drawn).1 = 1}
        = ENNReal.ofReal (Ising.acceptProb Real.exp (-1) 1 h)) ∧
    Ising.acceptProb Real.exp 1 (-1) h = min 1 (Real.exp (-2 * h)) ∧
    Ising.acceptProb Real.exp (-1) 1 h = min 1 (Real.exp (2 * h)) ∧
    (∀ p q : ℝ,
      (p + q = 1 ∧
        p * (1 - Ising.acceptProb Real.exp 1 (-1) h) + q * Ising.acceptProb Real.exp (-1) 1 h
          = p ∧
        p * Ising.acceptProb Real.exp 1 (-1) h + q * (1 - Ising.acceptProb Real.exp (-1) 1 h)
          = q) ↔
      (p = Real.exp h / (Real.exp h + Real.exp (-h)) ∧
        q = Real.exp (-h) / (Real.exp h + Real.exp (-h)))) ∧
    0 < Real.exp h / (Real.exp h + Real.exp (-h)) ∧
    0 < Real.exp (-h) / (Real.exp h + Real.exp (-h)) ∧
    (1 : ℝ) * (Real.exp h / (Real.exp h + Real.exp (-h)))
      + (-1) * (Real.exp (-h) / (Real.exp h + Real.exp (-h))) = Real.tanh h := by
  have hE1 : 0 < Real.exp h := Real.exp_pos h
  have hE2 : 0 < Real.exp (-h) := Real.exp_pos (-h)
  have hS : Real.exp h + Real.exp (-h) ≠ 0 := ne_of_gt (by linarith)
  have ha := Ising.acceptProb_pos 1 (-1) h
  have hb := Ising.acceptProb_pos (-1) 1 h
  have hbal : Real.exp h * Ising.acceptProb Real.exp 1 (-1) h
      = Real.exp (-h) * Ising.acceptProb Real.exp (-1) 1 h := by
    have := Ising.acceptProb_balance h 1 (-1) (Or.inl rfl) (Or.inr rfl)
    simpa using this
  refine ⟨?_, ?_, ?_, ?_, ?_, by positivity, by positivity, ?_⟩
  · intro drawn
    exact OneSpin.flip_volume h 1 (Or.inl rfl) drawn
  · intro drawn
    have := OneSpin.flip_volume h (-1) (Or.inr rfl) drawn
    simpa using this
  · unfold Ising.acceptProb
    norm_num
    by_cases hD : 2 * h ≤ 0
    · rw [if_pos hD, min_eq_left]
      exact Real.one_le_exp (by linarith)
    · rw [if_neg hD, min_eq_right]
      apply le_of_lt
      rw [Real.exp_lt_one_iff]
      linarith
  · unfold Ising.acceptProb
    norm_num
    by_cases hD : 0 ≤ h
    · rw [if_pos hD, min_eq_left]
      exact Real.one_le_exp (by linarith)
    · rw [if_neg hD, min_eq_right]
      apply le_of_lt
      rw [Real.exp_lt_one_iff]
      linarith
  · intro p q
    generalize Ising.acceptProb Real.exp 1 (-1) h = a at ha hbal ⊢
    generalize Ising.acceptProb Real.exp (-1) 1 h = b at hb hbal ⊢
    constructor
    · rintro ⟨hpq, hst, _⟩
      have hab : p * a = q * b := by linarith
      have hcross : p * Real.exp (-h) = q * Real.exp h := by
        have h1 : (p * Real.exp (-h)) * b = (q * Real.exp h) * b := by
          linear_combination (Real.exp h) * hab - p * hbal
        exact mul_right_cancel₀ (ne_of_gt hb) h1
      constructor
      · rw [eq_div_iff hS]
        linear_combination hcross + Real.exp h * hpq
      · rw [eq_div_iff hS]
        linear_combination Real.exp (-h) * hpq - hcross
    · rintro ⟨rfl, rfl⟩
      have hsum : Real.exp h / (Real.exp h + Real.exp (-h))
          + Real.exp (-h) / (Real.exp h + Real.exp (-h)) = 1 := by
        rw [← add_div, div_self hS]
      have hflow : Real.exp h / (Real.exp h + Real.exp (-h)) * a
          = Real.exp (-h) / (Real.exp h + Real.exp (-h)) * b := by
        rw [div_mul_eq_mul_div, div_mul_eq_mul_div, hbal]
      refine ⟨hsum, ?_, ?_⟩
      · linear_combination (-1 : ℝ) * hflow
      · linear_combination hflow
  · rw [Real.tanh_eq_sinh_div_cosh, Real.sinh_eq, Real.cosh_eq]
    field_simp
    ring
